import Mathlib

/-!
Verification development for the `equivocal` scene-audio engine
(`src/equivocal/engine.py`).

The engine stores per-category feature dictionaries ("atomic sounds"),
averages feature dictionaries of training samples into prototypes,
and blends prototypes selected by keyword lookup from a text prompt.

Feature dictionaries are modelled as association lists `List (String × FVal α)`
over a field `α` (the Python floats).  A feature value is a scalar
(`float`), an array (`numpy.ndarray`, modelled as `List α`) or a nested
dictionary.  Fallible Python code (exceptions) is modelled with `Option`.
-/

namespace Equivocal

/-- A feature value: a float scalar, a numpy array, or a nested dict
(association list, mirroring a Python `dict` with unique keys). -/
inductive FVal (α : Type) where
  | num : α → FVal α
  | arr : List α → FVal α
  | dict : List (String × FVal α) → FVal α

/-- A feature dictionary (the Python `dict` of descriptor name to value). -/
abbrev FDict (α : Type) := List (String × FVal α)

mutual

/-- Size measure used only for termination of the recursive averaging. -/
def FVal.tsize {α : Type} : FVal α → Nat
  | .num _ => 1
  | .arr _ => 1
  | .dict d => 1 + FVal.dsize d

/-- Size of a dictionary's values. -/
def FVal.dsize {α : Type} : List (String × FVal α) → Nat
  | [] => 0
  | (_, v) :: rest => FVal.tsize v + FVal.dsize rest

end

/-- Total size of a list of feature dictionaries. -/
def totalSize {α : Type} (fs : List (FDict α)) : Nat :=
  (fs.map FVal.dsize).sum

/-- Set-insert preserving first-insertion order: models adding an element
to a Python `set` (canonical order for `set.update` / iteration). -/
def insSet (acc : List String) (x : String) : List String :=
  if x ∈ acc then acc else acc ++ [x]

/-- Insert many elements in order. -/
def addAll (acc : List String) (xs : List String) : List String :=
  xs.foldl insSet acc

/-- Model of `all_keys = set(); for f in feature_list: all_keys.update(f.keys())`
(keys in first-occurrence order). -/
def keysUnion {α : Type} (fs : List (FDict α)) : List String :=
  fs.foldl (fun acc f => addAll acc (f.map Prod.fst)) []

/-- Model of `values = [f[key] for f in feature_list if key in f]`. -/
def collectAt {α : Type} (k : String) (fs : List (FDict α)) : List (FVal α) :=
  fs.filterMap (fun f => f.lookup k)

/-- Require every value to be a scalar (else the Python code would raise). -/
def toNums {α : Type} : List (FVal α) → Option (List α)
  | [] => some []
  | .num q :: rest => (toNums rest).map (q :: ·)
  | _ => none

/-- Require every value to be an array. -/
def toArrs {α : Type} : List (FVal α) → Option (List (List α))
  | [] => some []
  | .arr a :: rest => (toArrs rest).map (a :: ·)
  | _ => none

/-- Require every value to be a nested dict. -/
def toDicts {α : Type} : List (FVal α) → Option (List (FDict α))
  | [] => some []
  | .dict d :: rest => (toDicts rest).map (d :: ·)
  | _ => none

/-- Model of `float(np.mean(values))` on a list of floats. -/
def listMean {α : Type} [Field α] (xs : List α) : α :=
  xs.sum / (xs.length : α)

/-- All arrays share the first array's length (`np.mean(..., axis=0)`
raises on ragged input). -/
def sameLen {α : Type} (xss : List (List α)) : Bool :=
  match xss with
  | [] => true
  | xs :: rest => rest.all (fun ys => ys.length == xs.length)

/-- Model of `np.mean(values, axis=0)` on equal-length arrays: component-wise mean. -/
def arrMean {α : Type} [Field α] (xss : List (List α)) : List α :=
  match xss with
  | [] => []
  | xs :: _ => (List.range xs.length).map (fun i => listMean (xss.map (fun ys => ys.getD i 0)))

lemma lookup_tsize_le {α : Type} (f : FDict α) (k : String) (v : FVal α)
    (h : f.lookup k = some v) : FVal.tsize v ≤ FVal.dsize f := by
  induction f with
  | nil => simp [List.lookup] at h
  | cons p rest ih =>
    obtain ⟨a, w⟩ := p
    rw [List.lookup] at h
    by_cases hk : k = a
    · simp [hk] at h
      subst h
      simp [FVal.dsize]
    · have hba : (k == a) = false := beq_false_of_ne hk
      rw [hba] at h
      simp only [FVal.dsize]
      exact le_trans (ih h) (Nat.le_add_left _ _)

lemma sum_tsize_collect_le {α : Type} (k : String) (fs : List (FDict α)) :
    ((collectAt k fs).map FVal.tsize).sum ≤ totalSize fs := by
  induction fs with
  | nil => simp [collectAt, totalSize]
  | cons f fs ih =>
    simp only [collectAt, List.filterMap_cons, totalSize, List.map_cons, List.sum_cons]
    cases h : f.lookup k with
    | none =>
      exact le_trans ih (Nat.le_add_left _ _)
    | some v =>
      simp only [List.map_cons, List.sum_cons]
      exact Nat.add_le_add (lookup_tsize_le f k v h) ih

lemma sum_tsize_toDicts {α : Type} (vs : List (FVal α)) (ds : List (FDict α))
    (h : toDicts vs = some ds) :
    (vs.map FVal.tsize).sum = vs.length + totalSize ds := by
  induction vs generalizing ds with
  | nil =>
    simp only [toDicts, Option.some.injEq] at h
    subst h
    simp [totalSize]
  | cons v vs ih =>
    cases v with
    | num q => simp [toDicts] at h
    | arr a => simp [toDicts] at h
    | dict d =>
      rw [toDicts, Option.map_eq_some'] at h
      obtain ⟨ds', hds', rfl⟩ := h
      have := ih ds' hds'
      simp only [List.map_cons, List.sum_cons, FVal.tsize, List.length_cons, totalSize] at *
      omega

lemma totalSize_toDicts_lt {α : Type} (k : String) (fs : List (FDict α))
    (v : FVal α) (vs : List (FVal α)) (ds : List (FDict α))
    (hc : collectAt k fs = v :: vs) (hd : toDicts (v :: vs) = some ds) :
    totalSize ds < totalSize fs := by
  have h1 := sum_tsize_collect_le k fs
  rw [hc] at h1
  have h2 := sum_tsize_toDicts (v :: vs) ds hd
  rw [h2] at h1
  simp only [List.length_cons] at h1
  omega

/-- The `for key in all_keys` loop of `_average_features`
(`src/equivocal/engine.py`).  For each key, `values` is the list of
values of the samples containing the key; depending on the type of
`values[0]` the averaged entry is the recursive dictionary average, the
component-wise array mean (`np.mean(values, axis=0)`), or the scalar mean
(`float(np.mean(values))`).  A Python exception (heterogeneous value
types, ragged arrays) is `none`.  The recursive call
`_average_features(values)` is `avgEntries (keysUnion ds) ds`, which
equals `average_features ds` since `values` is non-empty there. -/
def avgEntries {α : Type} [Field α] : List String → List (FDict α) → Option (FDict α)
  | [], _ => some []
  | k :: ks, fs =>
    match hc : collectAt k fs with
    | [] => avgEntries ks fs
    | v :: vs =>
      match v with
      | .num q => do
          let qs ← toNums (FVal.num q :: vs)
          let rest ← avgEntries ks fs
          pure ((k, FVal.num (listMean qs)) :: rest)
      | .arr a => do
          let as ← toArrs (FVal.arr a :: vs)
          if sameLen as then do
            let rest ← avgEntries ks fs
            pure ((k, FVal.arr (arrMean as)) :: rest)
          else none
      | .dict d =>
        match hd : toDicts (FVal.dict d :: vs) with
        | none => none
        | some ds => do
          let sub ← avgEntries (keysUnion ds) ds
          let rest ← avgEntries ks fs
          pure ((k, FVal.dict sub) :: rest)
termination_by ks fs => (totalSize fs, ks.length)
decreasing_by
  · exact Prod.Lex.right _ (Nat.lt_succ_self _)
  · exact Prod.Lex.right _ (Nat.lt_succ_self _)
  · exact Prod.Lex.right _ (Nat.lt_succ_self _)
  · exact Prod.Lex.left _ _ (totalSize_toDicts_lt k fs _ vs ds hc hd)
  · exact Prod.Lex.right _ (Nat.lt_succ_self _)

/-- Model of `SceneAudioEngine._average_features` (`src/equivocal/engine.py`,
lines 222-253): returns `{}` on an empty list, otherwise averages each
key over the samples containing it. -/
def average_features {α : Type} [Field α] (fs : List (FDict α)) : Option (FDict α) :=
  if fs.isEmpty then some [] else avgEntries (keysUnion fs) fs

/-- Model of `[(lat[key], w) for lat, w in zip(latents, weights) if key in lat]`:
the `values` and `valid_weights` accumulation of `_blend_sounds`. -/
def presentPairs {α : Type} (k : String) (latents : List (FDict α)) (ws : List α) :
    List (FVal α × α) :=
  (latents.zip ws).filterMap (fun p => (p.1.lookup k).map (fun v => (v, p.2)))

/-- Model of `float(np.average(values, weights=w))`: raises (is `none`) unless the
lengths match and the weight sum is non-zero. -/
def wavgNum {α : Type} [Field α] [DecidableEq α] (vs ws : List α) : Option α :=
  if ws.length = vs.length ∧ ws.sum ≠ 0 then
    some ((List.zipWith (fun w v => w * v) ws vs).sum / ws.sum)
  else none

/-- Model of `np.average(values, axis=0, weights=w)` on equal-length arrays:
component-wise weighted average. -/
def wavgArr {α : Type} [Field α] [DecidableEq α] (vss : List (List α)) (ws : List α) :
    Option (List α) :=
  if sameLen vss ∧ ws.length = vss.length ∧ ws.sum ≠ 0 then
    some ((List.range (vss.headD []).length).map
      (fun i => (List.zipWith (fun w vs => w * vs.getD i 0) ws vss).sum / ws.sum))
  else none

/-- The `for key in all_keys` loop of `_blend_dict_values`
(`src/equivocal/engine.py`, lines 427-442).  Note the source uses
`weights[:len(values)]` — the first `len(values)` weights — not the
weights of the dicts that contain the key. -/
def blendDictEntries {α : Type} [Field α] [DecidableEq α] :
    List String → List (FDict α) → List α → Option (FDict α)
  | [], _, _ => some []
  | k :: ks, dicts, weights =>
    match collectAt k dicts with
    | [] => blendDictEntries ks dicts weights
    | v :: vs =>
      let ws := weights.take (v :: vs).length
      match v with
      | .arr a => do
          let as ← toArrs (FVal.arr a :: vs)
          let bl ← wavgArr as ws
          let rest ← blendDictEntries ks dicts weights
          pure ((k, FVal.arr bl) :: rest)
      | _ => do
          let qs ← toNums (v :: vs)
          let q ← wavgNum qs ws
          let rest ← blendDictEntries ks dicts weights
          pure ((k, FVal.num q) :: rest)

/-- Model of `SceneAudioEngine._blend_dict_values` (`src/equivocal/engine.py`,
lines 427-442). -/
def blend_dict_values {α : Type} [Field α] [DecidableEq α]
    (dicts : List (FDict α)) (weights : List α) : Option (FDict α) :=
  blendDictEntries (keysUnion dicts) dicts weights

/-- The `for key in all_keys` loop of `_blend_sounds`
(`src/equivocal/engine.py`, lines 407-424). -/
def blendEntries {α : Type} [Field α] [DecidableEq α] :
    List String → List (FDict α) → List α → Option (FDict α)
  | [], _, _ => some []
  | k :: ks, latents, weights =>
    match presentPairs k latents weights with
    | [] => blendEntries ks latents weights
    | p :: ps =>
      let values := (p :: ps).map Prod.fst
      let vw := (p :: ps).map Prod.snd
      match p.1 with
      | .dict _ => do
          let ds ← toDicts values
          let sub ← blend_dict_values ds vw
          let rest ← blendEntries ks latents weights
          pure ((k, FVal.dict sub) :: rest)
      | .arr _ => do
          let as ← toArrs values
          let bl ← wavgArr as vw
          let rest ← blendEntries ks latents weights
          pure ((k, FVal.arr bl) :: rest)
      | .num _ => do
          let qs ← toNums values
          let q ← wavgNum qs vw
          let rest ← blendEntries ks latents weights
          pure ((k, FVal.num q) :: rest)

/-- Model of `latents = [self.atomic_sounds[name] for name in sound_names]`
(a missing name is a `KeyError`, i.e. `none`). -/
def lookupAll {α : Type} (atomic : List (String × FDict α)) :
    List String → Option (List (FDict α))
  | [] => some []
  | n :: rest => (atomic.lookup n).bind (fun l => (lookupAll atomic rest).map (l :: ·))

/-- The `weights` default of `_blend_sounds`: `weights=None` becomes
`[1.0 / len(sound_names)] * len(sound_names)` (`ZeroDivisionError`,
i.e. `none`, on an empty name list). -/
def resolveWeights {α : Type} [Field α] (wOpt : Option (List α))
    (names : List String) : Option (List α) :=
  match wOpt with
  | some w => some w
  | none =>
      if names.length = 0 then none
      else some (List.replicate names.length (1 / (names.length : α)))

/-- Model of `SceneAudioEngine._blend_sounds` (`src/equivocal/engine.py`,
lines 394-425).  `wOpt = none` is the `weights=None` default, which
becomes `[1.0 / len(sound_names)] * len(sound_names)` (a
`ZeroDivisionError`, i.e. `none`, when `sound_names` is empty). -/
def blend_sounds {α : Type} [Field α] [DecidableEq α]
    (atomic : List (String × FDict α)) (names : List String)
    (wOpt : Option (List α)) : Option (FDict α) := do
  let ws ← resolveWeights wOpt names
  let latents ← lookupAll atomic names
  blendEntries (keysUnion latents) latents ws

/-- The word-to-category table `semantic_map` of
`generate_scene_from_text` (`src/equivocal/engine.py`, lines 267-347). -/
def semantic_map : List (String × List String) :=
  [("cafe", ["cafe_ambience", "cafe_chatter", "espresso_machine"]),
   ("coffee", ["cafe_ambience", "espresso_machine"]),
   ("coffeeshop", ["cafe_ambience", "cafe_chatter", "espresso_machine"]),
   ("restaurant", ["cafe_ambience", "cafe_chatter"]),
   ("indoor", ["cafe_ambience"]),
   ("inside", ["cafe_ambience"]),
   ("forest", ["forest_ambience", "bird_chirp"]),
   ("woods", ["forest_ambience", "bird_chirp"]),
   ("trees", ["forest_ambience"]),
   ("nature", ["forest_ambience", "bird_chirp"]),
   ("outdoor", ["forest_ambience"]),
   ("outside", ["forest_ambience"]),
   ("wind", ["forest_ambience"]),
   ("breeze", ["forest_ambience"]),
   ("leaves", ["forest_ambience"]),
   ("underwater", ["underwater_ambience", "whale_song", "dolphin_clicks"]),
   ("ocean", ["underwater_ambience", "whale_song", "dolphin_clicks"]),
   ("sea", ["underwater_ambience", "whale_song"]),
   ("aquatic", ["underwater_ambience", "whale_song", "dolphin_clicks"]),
   ("deep", ["underwater_ambience", "whale_song"]),
   ("water", ["underwater_ambience"]),
   ("marine", ["underwater_ambience", "whale_song", "dolphin_clicks"]),
   ("whale", ["whale_song"]),
   ("whales", ["whale_song"]),
   ("humpback", ["whale_song"]),
   ("dolphin", ["dolphin_clicks"]),
   ("dolphins", ["dolphin_clicks"]),
   ("seal", ["sealion_shrimp"]),
   ("sealion", ["sealion_shrimp"]),
   ("sea-lion", ["sealion_shrimp"]),
   ("bird", ["bird_chirp"]),
   ("birds", ["bird_chirp"]),
   ("chirp", ["bird_chirp"]),
   ("chirping", ["bird_chirp"]),
   ("singing", ["bird_chirp", "whale_song"]),
   ("song", ["bird_chirp", "whale_song"]),
   ("thunder", ["thunder"]),
   ("thunderstorm", ["thunder", "forest_ambience"]),
   ("storm", ["thunder", "forest_ambience"]),
   ("lightning", ["thunder"]),
   ("rain", ["forest_ambience"]),
   ("raining", ["forest_ambience"]),
   ("espresso", ["espresso_machine"]),
   ("steam", ["espresso_machine"]),
   ("hiss", ["espresso_machine"]),
   ("machine", ["espresso_machine"]),
   ("brewing", ["espresso_machine"]),
   ("chatter", ["cafe_chatter"]),
   ("talking", ["cafe_chatter"]),
   ("conversation", ["cafe_chatter"]),
   ("voices", ["cafe_chatter"]),
   ("people", ["cafe_chatter"]),
   ("crowd", ["cafe_chatter"]),
   ("clicks", ["dolphin_clicks"]),
   ("clicking", ["dolphin_clicks"]),
   ("echolocation", ["dolphin_clicks"]),
   ("peaceful", ["underwater_ambience", "forest_ambience"]),
   ("calm", ["forest_ambience", "underwater_ambience"]),
   ("quiet", ["forest_ambience", "underwater_ambience"]),
   ("serene", ["forest_ambience", "underwater_ambience"]),
   ("tranquil", ["forest_ambience", "underwater_ambience"]),
   ("busy", ["cafe_ambience", "cafe_chatter"]),
   ("active", ["cafe_chatter", "bird_chirp"]),
   ("lively", ["cafe_ambience", "cafe_chatter", "bird_chirp"]),
   ("dramatic", ["thunder", "whale_song"]),
   ("intense", ["thunder", "whale_song"]),
   ("powerful", ["thunder", "whale_song"]),
   ("gentle", ["forest_ambience", "bird_chirp"]),
   ("soft", ["forest_ambience"]),
   ("loud", ["thunder", "espresso_machine"])]

/-- Whether `needle` is a prefix of `hay` (character lists). -/
def isPrefixB : List Char → List Char → Bool
  | [], _ => true
  | _ :: _, [] => false
  | a :: as, b :: bs => a == b && isPrefixB as bs

/-- Whether `needle` occurs as a contiguous sublist of `hay` (Python `in`
on strings; the empty needle always matches). -/
def isSubListB : List Char → List Char → Bool
  | needle, [] => needle.isEmpty
  | needle, c :: rest => isPrefixB needle (c :: rest) || isSubListB needle rest

/-- Python `w in hay` for strings. -/
def strContains (hay w : String) : Bool :=
  isSubListB w.toList hay.toList

/-- Python `str.lower` (ASCII model). -/
def lowerStr (s : String) : String :=
  String.mk (s.toList.map Char.toLower)

/-- Model of `prompt.lower().split()`: lowercase, split on whitespace, drop empty
words. -/
def wordsOf (prompt : String) : List String :=
  (((lowerStr prompt).toList.splitOnP Char.isWhitespace).filter (· ≠ [])).map String.mk

/-- One iteration of the `for word in words` matching loop of
`generate_scene_from_text`: the semantic-map categories present in
`atomic_sounds`, then every learned sound name containing the word as a
substring, added to the match set (first-insertion order). -/
def matchStep {α : Type} (atomic : List (String × FDict α))
    (acc : List String) (w : String) : List String :=
  let direct := ((semantic_map.lookup w).getD []).filter (fun s => (atomic.lookup s).isSome)
  let sub := (atomic.map Prod.fst).filter (fun n => strContains n w)
  addAll acc (direct ++ sub)

/-- The match set of `generate_scene_from_text`
(`src/equivocal/engine.py`, lines 349-369). -/
def matched_sounds {α : Type} (atomic : List (String × FDict α))
    (prompt : String) : List String :=
  (wordsOf prompt).foldl (matchStep atomic) []

/-- The dictionary returned by `generate_scene_from_text`: exactly the
keys `latent`, `components` and `prompt`. -/
structure Scene (α : Type) where
  latent : FDict α
  components : List String
  prompt : String

/-- Model of `SceneAudioEngine.generate_scene_from_text`
(`src/equivocal/engine.py`, lines 255-392).  The outer `Option` is a
Python exception; `some none` is the `return None` of the no-match
branch; `some (some s)` is the returned scene dictionary. -/
def generate_scene_from_text {α : Type} [Field α] [DecidableEq α]
    (atomic : List (String × FDict α)) (prompt : String) :
    Option (Option (Scene α)) :=
  let ms := matched_sounds atomic prompt
  if ms.isEmpty then some none
  else (blend_sounds atomic ms none).map (fun l => some (Scene.mk l ms prompt))

/-- The engine state (`SceneAudioEngine.__init__`). -/
structure Engine (α : Type) where
  sr : ℕ
  atomic_sounds : List (String × FDict α)
  soundscapes : List (String × FDict α)
  semantic_vocabulary : List (String × FVal α)

/-- The function `generate_scene_from_text` as a state transformer on the engine: it
only reads `atomic_sounds` and never writes any field. -/
def Engine.generate {α : Type} [Field α] [DecidableEq α] (e : Engine α)
    (prompt : String) : Option (Option (Scene α)) × Engine α :=
  (generate_scene_from_text e.atomic_sounds prompt, e)

/-- One training category: its directory name and, per `*.wav` file, the
result of `librosa.load` + `_extract_semantic_features` (`none` when the
`except` branch caught an error for that file). -/
structure Category (α : Type) where
  name : String
  samples : List (Option (FDict α))

/-- Python dict assignment `self.atomic_sounds[name] = value`:
replace in place, or append a new entry. -/
def dinsert {α : Type} (m : List (String × FDict α)) (k : String) (v : FDict α) :
    List (String × FDict α) :=
  if (m.lookup k).isSome then m.map (fun p => if p.1 = k then (k, v) else p)
  else m ++ [(k, v)]

/-- Model of `SceneAudioEngine.train_atomic_sounds` (`src/equivocal/engine.py`,
lines 57-73), at the granularity of category directories: failed samples
are skipped; a category with at least one successful sample stores
`_average_features` of its successful samples. -/
def train_atomic_sounds {α : Type} [Field α] :
    List (Category α) → List (String × FDict α) → Option (List (String × FDict α))
  | [], acc => some acc
  | c :: rest, acc =>
    let ss := c.samples.filterMap id
    if ss.isEmpty then train_atomic_sounds rest acc
    else (average_features ss).bind (fun p => train_atomic_sounds rest (dinsert acc c.name p))

/-! ### Feature extraction (`_extract_semantic_features` and the
`_compute_*` helpers, `src/equivocal/engine.py`, lines 81-220).

The librosa / numpy signal-processing primitives are external library
calls (out of scope per the spec); they are abstracted as the fields of
`Lib`.  The engine's own arithmetic on their outputs is embedded. -/
/-- The librosa primitives used by the extractor.  Matrices are lists of
rows (`chroma_cqt`, `mfcc`) or of per-frame columns (`piptrack`, where a
column is the pair of pitch and magnitude bins). -/
structure Lib where
  chroma_cqt : List ℝ → ℕ → List (List ℝ)
  rms : List ℝ → List ℝ
  onset_strength : List ℝ → ℕ → List ℝ
  hpss : List ℝ → List ℝ × List ℝ
  spectral_centroid : List ℝ → ℕ → List ℝ
  spectral_flatness : List ℝ → List ℝ
  mfcc : List ℝ → ℕ → ℕ → List (List ℝ)
  onset_detect : List ℝ → ℕ → List ℕ
  piptrack : List ℝ → ℕ → List (List ℝ × List ℝ)
  spectral_rolloff : List ℝ → ℕ → ℝ → List ℝ
  zero_crossing_rate : List ℝ → List ℝ

/-- Model of `np.sum(xs**2)`. -/
noncomputable def sumSq (xs : List ℝ) : ℝ :=
  (xs.map (fun x => x ^ 2)).sum

/-- Model of `np.var` (population variance). -/
noncomputable def listVar (xs : List ℝ) : ℝ :=
  listMean (xs.map (fun x => (x - listMean xs) ^ 2))

/-- Model of `np.max` on a non-empty list. -/
noncomputable def listMax (xs : List ℝ) : ℝ :=
  xs.foldl max (xs.headD 0)

/-- Model of `np.min` on a non-empty list. -/
noncomputable def listMin (xs : List ℝ) : ℝ :=
  xs.foldl min (xs.headD 0)

/-- Model of `np.argmax`: index of the first maximal element. -/
noncomputable def argmaxIdx (xs : List ℝ) : ℕ :=
  ((xs.zip (List.range xs.length)).foldl
    (fun best p => if p.1 > best.1 then p else best) (xs.headD 0, 0)).2

/-- Model of `np.clip(x, 0, 1)` = `np.minimum(1, np.maximum(0, x))`. -/
noncomputable def npclip01 (x : ℝ) : ℝ :=
  min 1 (max 0 x)

/-- Model of `SceneAudioEngine._compute_valence` (lines 127-136):
`np.tanh(chroma[4].mean() - chroma[3].mean())`. -/
noncomputable def compute_valence (lib : Lib) (audio : List ℝ) (sr : ℕ) : ℝ :=
  let chroma := lib.chroma_cqt audio sr
  Real.tanh (listMean (chroma.getD 4 []) - listMean (chroma.getD 3 []))

/-- Model of `SceneAudioEngine._compute_energy` (lines 138-141). -/
noncomputable def compute_energy (lib : Lib) (audio : List ℝ) : ℝ :=
  listMean (lib.rms audio)

/-- Model of `SceneAudioEngine._compute_rhythm_complexity` (lines 143-151). -/
noncomputable def compute_rhythm_complexity (lib : Lib) (audio : List ℝ) (sr : ℕ) : ℝ :=
  let env := lib.onset_strength audio sr
  if 1 < env.length then
    let p := env.map (fun e => e / (env.sum + 1e-10))
    let entropy := -(p.map (fun q => q * Real.log (q + 1e-10))).sum
    entropy / Real.log (env.length : ℝ)
  else 0

/-- Model of `SceneAudioEngine._compute_harmonic_content` (lines 153-157):
`harmonic, percussive = hpss(audio);
ratio = np.sum(harmonic**2) / (np.sum(audio**2) + 1e-10)`. -/
noncomputable def compute_harmonic_content (lib : Lib) (audio : List ℝ) : ℝ :=
  let hp := lib.hpss audio
  sumSq hp.1 / (sumSq audio + 1e-10)

/-- Least-squares slope: `np.polyfit(x, y, 1)[0]` with `x = arange(len(y))`. -/
noncomputable def lsSlope (ys : List ℝ) : ℝ :=
  let n : ℝ := (ys.length : ℝ)
  let xs : List ℝ := (List.range ys.length).map (fun i => (i : ℝ))
  (n * (List.zipWith (fun x y => x * y) xs ys).sum - xs.sum * ys.sum) /
    (n * (xs.map (fun x => x * x)).sum - xs.sum * xs.sum)

/-- Model of `SceneAudioEngine._compute_spectral_motion` (lines 159-167). -/
noncomputable def compute_spectral_motion (lib : Lib) (audio : List ℝ) (sr : ℕ) : ℝ :=
  let centroid := lib.spectral_centroid audio sr
  if 1 < centroid.length then Real.tanh (lsSlope centroid / 100) else 0

/-- Model of `SceneAudioEngine._compute_texture` (lines 169-172). -/
noncomputable def compute_texture (lib : Lib) (audio : List ℝ) : ℝ :=
  1 - listMean (lib.spectral_flatness audio)

/-- Model of `SceneAudioEngine._compute_timbre` (lines 174-177):
`np.mean(mfccs, axis=1)` (per-row mean, 13 rows). -/
noncomputable def compute_timbre (lib : Lib) (audio : List ℝ) (sr : ℕ) : List ℝ :=
  (lib.mfcc audio sr 13).map listMean

/-- Model of `SceneAudioEngine._compute_onset_structure` (lines 179-190). -/
noncomputable def compute_onset_structure (lib : Lib) (audio : List ℝ) (sr : ℕ) : FDict ℝ :=
  let frames := lib.onset_detect audio sr
  if 1 < frames.length then
    let iois := List.zipWith (fun a b => (b : ℝ) - (a : ℝ)) frames frames.tail
    [("mean_ioi", FVal.num (listMean iois)),
     ("ioi_variance", FVal.num (listVar iois)),
     ("num_onsets", FVal.num (frames.length : ℝ))]
  else
    [("mean_ioi", FVal.num 0), ("ioi_variance", FVal.num 0), ("num_onsets", FVal.num 0)]

/-- The per-frame strongest-pitch track of `_compute_pitch_profile`:
per column, the pitch at the magnitude argmax, kept when positive. -/
noncomputable def pitchTrack (cols : List (List ℝ × List ℝ)) : List ℝ :=
  cols.filterMap (fun c =>
    let p := c.1.getD (argmaxIdx c.2) 0
    if p > 0 then some p else none)

/-- Model of `SceneAudioEngine._compute_pitch_profile` (lines 192-209). -/
noncomputable def compute_pitch_profile (lib : Lib) (audio : List ℝ) (sr : ℕ) : FDict ℝ :=
  let track := pitchTrack (lib.piptrack audio sr)
  if 0 < track.length then
    [("mean_pitch", FVal.num (listMean track)),
     ("pitch_range", FVal.num (listMax track - listMin track)),
     ("pitch_variance", FVal.num (listVar track))]
  else
    [("mean_pitch", FVal.num 0), ("pitch_range", FVal.num 0), ("pitch_variance", FVal.num 0)]

/-- Model of `SceneAudioEngine._compute_spatial_quality` (lines 211-220):
`np.clip(mean(rolloff)/(sr/2) + mean(zcr), 0, 1)`. -/
noncomputable def compute_spatial_quality (lib : Lib) (audio : List ℝ) (sr : ℕ) : ℝ :=
  let rolloff := lib.spectral_rolloff audio sr (85 / 100)
  let zcr := lib.zero_crossing_rate audio
  npclip01 (listMean rolloff / ((sr : ℝ) / 2) + listMean zcr)

/-- Model of `SceneAudioEngine._extract_semantic_features`
(`src/equivocal/engine.py`, lines 81-125): the fixed ten-entry feature
dictionary, in source insertion order. -/
noncomputable def extract_semantic_features (lib : Lib) (audio : List ℝ) (sr : ℕ) : FDict ℝ :=
  [("emotional_valence", FVal.num (compute_valence lib audio sr)),
   ("energy_level", FVal.num (compute_energy lib audio)),
   ("temporal_complexity", FVal.num (compute_rhythm_complexity lib audio sr)),
   ("harmonic_richness", FVal.num (compute_harmonic_content lib audio)),
   ("spectral_trajectory", FVal.num (compute_spectral_motion lib audio sr)),
   ("textural_density", FVal.num (compute_texture lib audio)),
   ("timbre_vector", FVal.arr (compute_timbre lib audio sr)),
   ("onset_pattern", FVal.dict (compute_onset_structure lib audio sr)),
   ("pitch_profile", FVal.dict (compute_pitch_profile lib audio sr)),
   ("spatial_openness", FVal.num (compute_spatial_quality lib audio sr))]

/-- The per-key averaged value of `_average_features`: the branch on the
type of `values[0]`. -/
def avgVal {α : Type} [Field α] : List (FVal α) → Option (FVal α)
  | [] => none
  | .num q :: vs => (toNums (FVal.num q :: vs)).map (fun qs => FVal.num (listMean qs))
  | .arr a :: vs => (toArrs (FVal.arr a :: vs)).bind
      (fun as => if sameLen as then some (FVal.arr (arrMean as)) else none)
  | .dict d :: vs => (toDicts (FVal.dict d :: vs)).bind
      (fun ds => (avgEntries (keysUnion ds) ds).map FVal.dict)

/-- The per-key blended value of `_blend_dict_values`: the branch on the
type of `values[0]`, with the source's prefix weights
`weights[:len(values)]`. -/
def blendDictVal {α : Type} [Field α] [DecidableEq α]
    (vs : List (FVal α)) (weights : List α) : Option (FVal α) :=
  match vs with
  | [] => none
  | v :: rest =>
    let ws := weights.take (v :: rest).length
    match v with
    | .arr a => (toArrs (FVal.arr a :: rest)).bind (fun as => (wavgArr as ws).map FVal.arr)
    | _ => (toNums (v :: rest)).bind (fun qs => (wavgNum qs ws).map FVal.num)

/-- The per-key blended value of `_blend_sounds`: the branch on the type
of `values[0]`, applied to the values and weights of the prototypes that
contain the key. -/
def blendVal {α : Type} [Field α] [DecidableEq α]
    (pairs : List (FVal α × α)) : Option (FVal α) :=
  match pairs with
  | [] => none
  | p :: ps =>
    let values := (p :: ps).map Prod.fst
    let vw := (p :: ps).map Prod.snd
    match p.1 with
    | .dict _ => (toDicts values).bind (fun ds => (blend_dict_values ds vw).map FVal.dict)
    | .arr _ => (toArrs values).bind (fun as => (wavgArr as vw).map FVal.arr)
    | .num _ => (toNums values).bind (fun qs => (wavgNum qs vw).map FVal.num)

/-- The per-word hits of the matching loop: semantic-map categories that
are learned, then learned names containing the word. -/
def matchHits {α : Type} (atomic : List (String × FDict α)) (w : String) : List String :=
  ((semantic_map.lookup w).getD []).filter (fun s => (atomic.lookup s).isSome) ++
    (atomic.map Prod.fst).filter (fun n => strContains n w)

/-! ### Well-formedness (Python dicts have unique keys) and singleton
identities -/
/-- No duplicate keys (a Python dict invariant). -/
def nodupKeysB : List String → Bool
  | [] => true
  | k :: rest => !(List.elem k rest) && nodupKeysB rest

mutual

/-- Recursive well-formedness of a feature value: every nested
dictionary has pairwise distinct keys. -/
def FVal.wfB {α : Type} : FVal α → Bool
  | .num _ => true
  | .arr _ => true
  | .dict d => nodupKeysB (d.map Prod.fst) && FVal.wfList d

/-- Well-formedness of all values of a dictionary. -/
def FVal.wfList {α : Type} : List (String × FVal α) → Bool
  | [] => true
  | (_, v) :: rest => FVal.wfB v && FVal.wfList rest

end

/-- Well-formedness of a feature dictionary. -/
def FDict.wfB {α : Type} (f : FDict α) : Bool :=
  nodupKeysB (f.map Prod.fst) && FVal.wfList f

/-- A value whose nested dictionaries (if any) contain no further
dictionaries — the shape of every extracted feature value. -/
def FVal.depth2B {α : Type} : FVal α → Bool
  | .dict d => d.all (fun p => match p.2 with | .dict _ => false | _ => true)
  | _ => true

/-- Nesting depth at most two for a whole feature dictionary. -/
def FDict.depth2B {α : Type} (f : FDict α) : Bool :=
  f.all (fun p => FVal.depth2B p.2)

/-- A concrete instantiation of the signal-processing primitives with
`hpss` returning the decomposition `[1, 0] + [0, 1]` of `[1, 1]`. -/
noncomputable def libC5 : Lib :=
  ⟨fun _ _ => [], fun _ => [], fun _ _ => [], fun _ => ([1, 0], [0, 1]),
   fun _ _ => [], fun _ => [], fun _ _ _ => [], fun _ _ => [],
   fun _ _ => [], fun _ _ _ => [], fun _ => []⟩

/-- The harmonic-percussive ratio as the claim words it: harmonic energy
divided by percussive energy. -/
noncomputable def claimedHarmonicRichness (lib : Lib) (audio : List ℝ) : ℝ :=
  sumSq (lib.hpss audio).1 / sumSq (lib.hpss audio).2

/-- Two engines differing in sample rate and soundscapes but sharing
`atomic_sounds`. -/
def e1C7 : Engine ℚ :=
  ⟨22050, [("bird_chirp", [("energy_level", FVal.num 1)])], [], []⟩

/-- See `e1C7`. -/
def e2C7 : Engine ℚ :=
  ⟨8000, [("bird_chirp", [("energy_level", FVal.num 1)])], [("s", [])], []⟩

/-- Two training categories: one whose every sample failed to load, one
with a failed sample between two successful ones. -/
def catsC6 : List (Category ℚ) :=
  [⟨"broken", [none, none]⟩,
   ⟨"bird", [some [("e", FVal.num 1)], none, some [("e", FVal.num 3)]]⟩]

/-- A prototype with a scalar, an array and a nested dictionary. -/
def protoC10 : FDict ℚ :=
  [("energy_level", FVal.num (1 / 2)), ("timbre_vector", FVal.arr [1, 2]),
   ("onset_pattern", FVal.dict [("mean_ioi", FVal.num 3), ("num_onsets", FVal.num 4)])]

/-- A dictionary with a depth-three nesting, averaged as a singleton. -/
def fC10 : FDict ℚ :=
  [("x", FVal.dict [("y", FVal.dict [("z", FVal.num 1)])]), ("w", FVal.arr [5])]

/-- The nested blend as the claim words it: the weighted average over
exactly the sub-dictionaries containing the key, using those same
sub-dictionaries' blend weights (scalar case). -/
def claimedDictBlendAt (dicts : List (FDict ℚ)) (weights : List ℚ) (k : String) :
    Option ℚ :=
  let pairs := (dicts.zip weights).filterMap
    (fun p => (p.1.lookup k).bind
      (fun v => match v with | FVal.num q => some (q, p.2) | _ => none))
  if pairs = [] then none
  else some ((pairs.map (fun q => q.2 * q.1)).sum / (pairs.map Prod.snd).sum)

/-- Three sub-dictionaries where only the last two contain `"x"`. -/
def dictsC4 : List (FDict ℚ) :=
  [[("y", FVal.num 5)],
   [("x", FVal.num 0), ("y", FVal.num 5)],
   [("x", FVal.num 1), ("y", FVal.num 5)]]

/-- A training category whose middle sample failed to load. -/
def catC1 : Category ℚ :=
  ⟨"cafe", [some [("energy", FVal.num 1)], none, some [("energy", FVal.num 2)]]⟩

/-- Two learned sounds: one scalar-only, one with scalar, array and
nested-dictionary descriptors. -/
def atomicC2 : List (String × FDict ℚ) :=
  [("forest_ambience", [("e", FVal.num 4)]),
   ("bird_chirp", [("e", FVal.num 2), ("t", FVal.arr [4]),
     ("o", FVal.dict [("a", FVal.num 6)])])]

/-- The blended latent for the prompt `"calm bird"`. -/
def latC2 : FDict ℚ :=
  [("e", FVal.num 3), ("t", FVal.arr [4]), ("o", FVal.dict [("a", FVal.num 6)])]

/-- The scene generated from `"calm bird"`. -/
def scC2 : Scene ℚ := ⟨latC2, ["forest_ambience", "bird_chirp"], "calm bird"⟩





/-! ### Characterization lemmas -/
/-- Membership in a set-insert. -/
lemma mem_insSet (acc : List String) (x s : String) :
    s ∈ insSet acc x ↔ s ∈ acc ∨ s = x := by
  unfold insSet
  by_cases h : x ∈ acc
  · simp only [if_pos h]
    constructor
    · exact Or.inl
    · rintro (hs | rfl)
      · exact hs
      · exact h
  · simp [if_neg h]

/-- Membership after inserting many elements. -/
lemma mem_addAll (xs : List String) (acc : List String) (s : String) :
    s ∈ addAll acc xs ↔ s ∈ acc ∨ s ∈ xs := by
  induction xs generalizing acc with
  | nil => simp [addAll]
  | cons x xs ih =>
    simp only [addAll, List.foldl_cons] at *
    rw [ih (insSet acc x), mem_insSet]
    simp only [List.mem_cons]
    tauto

/-- An association-list lookup succeeds iff the key occurs. -/
lemma lookup_isSome_iff {β : Type} (m : List (String × β)) (k : String) :
    (m.lookup k).isSome ↔ k ∈ m.map Prod.fst := by
  induction m with
  | nil => simp [List.lookup]
  | cons p rest ih =>
    obtain ⟨a, b⟩ := p
    rw [List.lookup]
    by_cases h : k = a
    · subst h
      simp
    · have hba : (k == a) = false := beq_false_of_ne h
      rw [hba]
      simp [ih, h]

/-- Membership in the union of key sets. -/
lemma mem_keysUnion {α : Type} (fs : List (FDict α)) (k : String) :
    k ∈ keysUnion fs ↔ ∃ f ∈ fs, k ∈ f.map Prod.fst := by
  unfold keysUnion
  suffices h : ∀ acc, k ∈ fs.foldl (fun acc f => addAll acc (f.map Prod.fst)) acc ↔
      k ∈ acc ∨ ∃ f ∈ fs, k ∈ f.map Prod.fst by
    rw [h []]
    simp
  induction fs with
  | nil => intro acc; simp
  | cons f fs ih =>
    intro acc
    simp only [List.foldl_cons]
    rw [ih (addAll acc (f.map Prod.fst)), mem_addAll]
    simp only [List.mem_cons]
    constructor
    · rintro ((h | h) | ⟨g, hg, hk⟩)
      · exact Or.inl h
      · exact Or.inr ⟨f, Or.inl rfl, h⟩
      · exact Or.inr ⟨g, Or.inr hg, hk⟩
    · rintro (h | ⟨g, (rfl | hg), hk⟩)
      · exact Or.inl (Or.inl h)
      · exact Or.inl (Or.inr hk)
      · exact Or.inr ⟨g, hg, hk⟩

/-- The values collected at a key are empty iff no dictionary has the key. -/
lemma collectAt_eq_nil_iff {α : Type} (k : String) (fs : List (FDict α)) :
    collectAt k fs = [] ↔ ∀ f ∈ fs, f.lookup k = none := by
  unfold collectAt
  rw [List.filterMap_eq_nil]

/-- A key outside the key union collects no values. -/
lemma collectAt_of_not_mem_keysUnion {α : Type} (k : String) (fs : List (FDict α))
    (h : k ∉ keysUnion fs) : collectAt k fs = [] := by
  rw [collectAt_eq_nil_iff]
  intro f hf
  by_contra hne
  exact h ((mem_keysUnion fs k).2 ⟨f, hf, (lookup_isSome_iff f k).1 (Option.ne_none_iff_isSome.1 hne)⟩)

/-- The loop `avgEntries` processes one key at a time. -/
lemma avgEntries_cons {α : Type} [Field α] (k : String) (ks : List String)
    (fs : List (FDict α)) :
    avgEntries (k :: ks) fs =
      match collectAt k fs with
      | [] => avgEntries ks fs
      | v :: vs => (avgVal (v :: vs)).bind
          (fun r => (avgEntries ks fs).map (fun rest => (k, r) :: rest))
      := by
  rw [avgEntries]
  split
  · rename_i heq
    rw [heq]
  · rename_i v vs heq
    conv_rhs => rw [heq]
    cases v with
    | num q =>
      simp only [avgVal]
      cases toNums (FVal.num q :: vs) <;> cases avgEntries ks fs <;> simp
    | arr a =>
      simp only [avgVal]
      cases toArrs (FVal.arr a :: vs) with
      | none => simp
      | some as =>
        by_cases hs : sameLen as
        · cases avgEntries ks fs <;> simp [hs]
        · simp [hs]
    | dict d =>
      simp only [avgVal]
      split
      · rename_i hd
        rw [hd]
        simp
      · rename_i ds hd
        rw [hd]
        cases h1 : avgEntries (keysUnion ds) ds <;> cases h2 : avgEntries ks fs <;>
          simp [h1, h2]

lemma avgEntries_cons_nil {α : Type} [Field α] (k : String) (ks : List String)
    (fs : List (FDict α)) (h : collectAt k fs = []) :
    avgEntries (k :: ks) fs = avgEntries ks fs := by
  rw [avgEntries_cons, h]

lemma avgEntries_cons_some {α : Type} [Field α] (k : String) (ks : List String)
    (fs : List (FDict α)) (v : FVal α) (vs : List (FVal α))
    (h : collectAt k fs = v :: vs) :
    avgEntries (k :: ks) fs = (avgVal (v :: vs)).bind
      (fun r => (avgEntries ks fs).map (fun rest => (k, r) :: rest)) := by
  rw [avgEntries_cons, h]

/-- Lookup in a successful `avgEntries` result: each processed key holds
its per-key average. -/
lemma avgEntries_lookup {α : Type} [Field α] (ks : List String)
    (fs : List (FDict α)) (g : FDict α) (h : avgEntries ks fs = some g) (k : String) :
    g.lookup k = if k ∈ ks then avgVal (collectAt k fs) else none := by
  induction ks generalizing g with
  | nil =>
    rw [avgEntries] at h
    cases h
    simp [List.lookup]
  | cons k' ks ih =>
    rw [avgEntries_cons] at h
    by_cases hk : k = k'
    · subst hk
      simp only [List.mem_cons, true_or, if_pos]
      cases hc : collectAt k fs with
      | nil =>
        rw [hc] at h
        rw [ih g h, hc]
        by_cases hm : k ∈ ks
        · rw [if_pos hm]
        · rw [if_neg hm]
          simp [avgVal]
      | cons v vs =>
        rw [hc] at h
        simp only [Option.bind_eq_some, Option.map_eq_some'] at h
        obtain ⟨r, hr, rest, hrest, rfl⟩ := h
        simp [List.lookup, hr]
    · have hba : (k == k') = false := beq_false_of_ne hk
      cases hc : collectAt k' fs with
      | nil =>
        rw [hc] at h
        rw [ih g h]
        simp [List.mem_cons, hk]
      | cons v vs =>
        rw [hc] at h
        simp only [Option.bind_eq_some, Option.map_eq_some'] at h
        obtain ⟨r, hr, rest, hrest, rfl⟩ := h
        rw [List.lookup, hba, ih rest hrest]
        simp [List.mem_cons, hk]

/-- The keys of a successful `avgEntries` result, in processing order. -/
lemma avgEntries_keys {α : Type} [Field α] (ks : List String)
    (fs : List (FDict α)) (g : FDict α) (h : avgEntries ks fs = some g) :
    g.map Prod.fst = ks.filter (fun k => !(collectAt k fs).isEmpty) := by
  induction ks generalizing g with
  | nil =>
    rw [avgEntries] at h
    cases h
    simp
  | cons k' ks ih =>
    rw [avgEntries_cons] at h
    cases hc : collectAt k' fs with
    | nil =>
      rw [hc] at h
      rw [ih g h, List.filter_cons]
      simp [hc]
    | cons v vs =>
      rw [hc] at h
      simp only [Option.bind_eq_some, Option.map_eq_some'] at h
      obtain ⟨r, hr, rest, hrest, rfl⟩ := h
      rw [List.filter_cons]
      simp only [hc, List.isEmpty_cons, Bool.not_false, if_pos]
      rw [List.map_cons, ih rest hrest]

/-- Lookup in `_average_features`: every key holds the average of the
values of the samples containing it (`none` for absent keys). -/
lemma average_features_lookup {α : Type} [Field α] (fs : List (FDict α))
    (g : FDict α) (h : average_features fs = some g) (k : String) :
    g.lookup k = avgVal (collectAt k fs) := by
  unfold average_features at h
  by_cases he : fs.isEmpty
  · rw [if_pos he] at h
    cases h
    rw [List.isEmpty_iff] at he
    subst he
    simp [List.lookup, collectAt, avgVal]
  · rw [if_neg he] at h
    rw [avgEntries_lookup (keysUnion fs) fs g h k]
    by_cases hm : k ∈ keysUnion fs
    · rw [if_pos hm]
    · rw [if_neg hm, collectAt_of_not_mem_keysUnion k fs hm]
      simp [avgVal]

/-- The loop `blendDictEntries` processes one key at a time. -/
lemma blendDictEntries_cons {α : Type} [Field α] [DecidableEq α] (k : String)
    (ks : List String) (dicts : List (FDict α)) (weights : List α) :
    blendDictEntries (k :: ks) dicts weights =
      match collectAt k dicts with
      | [] => blendDictEntries ks dicts weights
      | v :: vs => (blendDictVal (v :: vs) weights).bind
          (fun r => (blendDictEntries ks dicts weights).map (fun rest => (k, r) :: rest))
      := by
  rw [blendDictEntries]
  cases hc : collectAt k dicts with
  | nil => simp
  | cons v vs =>
    cases v with
    | num q =>
      simp only [blendDictVal]
      cases toNums (FVal.num q :: vs) with
      | none => simp
      | some qs => simp [Option.map_eq_bind, Option.bind_assoc, Function.comp]
    | arr a =>
      simp only [blendDictVal]
      cases toArrs (FVal.arr a :: vs) with
      | none => simp
      | some as => simp [Option.map_eq_bind, Option.bind_assoc, Function.comp]
    | dict d =>
      simp [blendDictVal, toNums]

lemma blendDictEntries_cons_nil {α : Type} [Field α] [DecidableEq α] (k : String)
    (ks : List String) (dicts : List (FDict α)) (weights : List α)
    (h : collectAt k dicts = []) :
    blendDictEntries (k :: ks) dicts weights = blendDictEntries ks dicts weights := by
  rw [blendDictEntries_cons, h]

lemma blendDictEntries_cons_some {α : Type} [Field α] [DecidableEq α] (k : String)
    (ks : List String) (dicts : List (FDict α)) (weights : List α)
    (v : FVal α) (vs : List (FVal α)) (h : collectAt k dicts = v :: vs) :
    blendDictEntries (k :: ks) dicts weights = (blendDictVal (v :: vs) weights).bind
      (fun r => (blendDictEntries ks dicts weights).map (fun rest => (k, r) :: rest)) := by
  rw [blendDictEntries_cons, h]

/-- Lookup in a successful `blendDictEntries` result. -/
lemma blendDictEntries_lookup {α : Type} [Field α] [DecidableEq α]
    (ks : List String) (dicts : List (FDict α)) (weights : List α) (g : FDict α)
    (h : blendDictEntries ks dicts weights = some g) (k : String) :
    g.lookup k = if k ∈ ks then blendDictVal (collectAt k dicts) weights else none := by
  induction ks generalizing g with
  | nil =>
    rw [blendDictEntries] at h
    cases h
    simp [List.lookup]
  | cons k' ks ih =>
    rw [blendDictEntries_cons] at h
    by_cases hk : k = k'
    · subst hk
      simp only [List.mem_cons, true_or, if_pos]
      cases hc : collectAt k dicts with
      | nil =>
        rw [hc] at h
        rw [ih g h, hc]
        by_cases hm : k ∈ ks
        · rw [if_pos hm]
        · rw [if_neg hm]
          simp [blendDictVal]
      | cons v vs =>
        rw [hc] at h
        simp only [Option.bind_eq_some, Option.map_eq_some'] at h
        obtain ⟨r, hr, rest, hrest, rfl⟩ := h
        simp [List.lookup, hr]
    · have hba : (k == k') = false := beq_false_of_ne hk
      cases hc : collectAt k' dicts with
      | nil =>
        rw [hc] at h
        rw [ih g h]
        simp [List.mem_cons, hk]
      | cons v vs =>
        rw [hc] at h
        simp only [Option.bind_eq_some, Option.map_eq_some'] at h
        obtain ⟨r, hr, rest, hrest, rfl⟩ := h
        rw [List.lookup, hba, ih rest hrest]
        simp [List.mem_cons, hk]

/-- Lookup in `_blend_dict_values`. -/
lemma blend_dict_values_lookup {α : Type} [Field α] [DecidableEq α]
    (dicts : List (FDict α)) (weights : List α) (g : FDict α)
    (h : blend_dict_values dicts weights = some g) (k : String) :
    g.lookup k = blendDictVal (collectAt k dicts) weights := by
  unfold blend_dict_values at h
  rw [blendDictEntries_lookup (keysUnion dicts) dicts weights g h k]
  by_cases hm : k ∈ keysUnion dicts
  · rw [if_pos hm]
  · rw [if_neg hm, collectAt_of_not_mem_keysUnion k dicts hm]
    simp [blendDictVal]

/-- The loop `blendEntries` processes one key at a time. -/
lemma blendEntries_cons {α : Type} [Field α] [DecidableEq α] (k : String)
    (ks : List String) (latents : List (FDict α)) (weights : List α) :
    blendEntries (k :: ks) latents weights =
      match presentPairs k latents weights with
      | [] => blendEntries ks latents weights
      | p :: ps => (blendVal (p :: ps)).bind
          (fun r => (blendEntries ks latents weights).map (fun rest => (k, r) :: rest))
      := by
  rw [blendEntries]
  cases hc : presentPairs k latents weights with
  | nil => simp
  | cons p ps =>
    obtain ⟨v, w⟩ := p
    cases v with
    | num q =>
      simp only [blendVal]
      cases toNums (((FVal.num q, w) :: ps).map Prod.fst) with
      | none => simp
      | some qs => simp [Option.map_eq_bind, Option.bind_assoc, Function.comp]
    | arr a =>
      simp only [blendVal]
      cases toArrs (((FVal.arr a, w) :: ps).map Prod.fst) with
      | none => simp
      | some as => simp [Option.map_eq_bind, Option.bind_assoc, Function.comp]
    | dict d =>
      simp only [blendVal]
      cases toDicts (((FVal.dict d, w) :: ps).map Prod.fst) with
      | none => simp
      | some ds => simp [Option.map_eq_bind, Option.bind_assoc, Function.comp]

lemma blendEntries_cons_nil {α : Type} [Field α] [DecidableEq α] (k : String)
    (ks : List String) (latents : List (FDict α)) (weights : List α)
    (h : presentPairs k latents weights = []) :
    blendEntries (k :: ks) latents weights = blendEntries ks latents weights := by
  rw [blendEntries_cons, h]

lemma blendEntries_cons_some {α : Type} [Field α] [DecidableEq α] (k : String)
    (ks : List String) (latents : List (FDict α)) (weights : List α)
    (p : FVal α × α) (ps : List (FVal α × α))
    (h : presentPairs k latents weights = p :: ps) :
    blendEntries (k :: ks) latents weights = (blendVal (p :: ps)).bind
      (fun r => (blendEntries ks latents weights).map (fun rest => (k, r) :: rest)) := by
  rw [blendEntries_cons, h]

/-- A key outside the union of the latents' keys has no present pairs. -/
lemma presentPairs_of_not_mem_keysUnion {α : Type} (k : String)
    (latents : List (FDict α)) (ws : List α) (h : k ∉ keysUnion latents) :
    presentPairs k latents ws = [] := by
  unfold presentPairs
  rw [List.filterMap_eq_nil_iff]
  intro p hp
  have hf : p.1 ∈ latents := (List.of_mem_zip hp).1
  have : p.1.lookup k = none := by
    by_contra hne
    exact h ((mem_keysUnion latents k).2
      ⟨p.1, hf, (lookup_isSome_iff p.1 k).1 (Option.ne_none_iff_isSome.1 hne)⟩)
  simp [this]

/-- Lookup in a successful `blendEntries` result. -/
lemma blendEntries_lookup {α : Type} [Field α] [DecidableEq α]
    (ks : List String) (latents : List (FDict α)) (weights : List α) (g : FDict α)
    (h : blendEntries ks latents weights = some g) (k : String) :
    g.lookup k = if k ∈ ks then blendVal (presentPairs k latents weights) else none := by
  induction ks generalizing g with
  | nil =>
    rw [blendEntries] at h
    cases h
    simp [List.lookup]
  | cons k' ks ih =>
    rw [blendEntries_cons] at h
    by_cases hk : k = k'
    · subst hk
      simp only [List.mem_cons, true_or, if_pos]
      cases hc : presentPairs k latents weights with
      | nil =>
        rw [hc] at h
        rw [ih g h, hc]
        by_cases hm : k ∈ ks
        · rw [if_pos hm]
        · rw [if_neg hm]
          simp [blendVal]
      | cons p ps =>
        rw [hc] at h
        simp only [Option.bind_eq_some, Option.map_eq_some'] at h
        obtain ⟨r, hr, rest, hrest, rfl⟩ := h
        simp [List.lookup, hr]
    · have hba : (k == k') = false := beq_false_of_ne hk
      cases hc : presentPairs k' latents weights with
      | nil =>
        rw [hc] at h
        rw [ih g h]
        simp [List.mem_cons, hk]
      | cons p ps =>
        rw [hc] at h
        simp only [Option.bind_eq_some, Option.map_eq_some'] at h
        obtain ⟨r, hr, rest, hrest, rfl⟩ := h
        rw [List.lookup, hba, ih rest hrest]
        simp [List.mem_cons, hk]

/-- A successful `_blend_sounds` call, decomposed: the resolved weights,
the looked-up prototypes, and the per-key blended values. -/
lemma blend_sounds_lookup {α : Type} [Field α] [DecidableEq α]
    (atomic : List (String × FDict α)) (names : List String)
    (wOpt : Option (List α)) (g : FDict α)
    (h : blend_sounds atomic names wOpt = some g) :
    ∃ ws latents, resolveWeights wOpt names = some ws ∧
      lookupAll atomic names = some latents ∧
      ∀ k, g.lookup k = blendVal (presentPairs k latents ws) := by
  unfold blend_sounds at h
  simp only [Option.bind_eq_bind, Option.bind_eq_some] at h
  obtain ⟨ws, hws, latents, hlat, hbl⟩ := h
  refine ⟨ws, latents, hws, hlat, fun k => ?_⟩
  rw [blendEntries_lookup (keysUnion latents) latents ws g hbl k]
  by_cases hm : k ∈ keysUnion latents
  · rw [if_pos hm]
  · rw [if_neg hm, presentPairs_of_not_mem_keysUnion k latents ws hm]
    simp [blendVal]

/-- The helper `lookupAll` succeeds exactly on pointwise successful lookups. -/
lemma lookupAll_forall2 {α : Type} (atomic : List (String × FDict α))
    (names : List String) (latents : List (FDict α)) :
    lookupAll atomic names = some latents ↔
      List.Forall₂ (fun n l => atomic.lookup n = some l) names latents := by
  induction names generalizing latents with
  | nil =>
    simp only [lookupAll]
    constructor
    · rintro h
      cases h
      exact List.Forall₂.nil
    · intro h
      cases h
      rfl
  | cons n rest ih =>
    simp only [lookupAll, Option.bind_eq_some, Option.map_eq_some']
    constructor
    · rintro ⟨l, hl, ls, hls, rfl⟩
      exact List.Forall₂.cons hl ((ih ls).1 hls)
    · intro h
      cases h with
      | cons hl hls =>
        rename_i l ls
        exact ⟨l, hl, ls, (ih ls).2 hls, rfl⟩

/-! ### Arithmetic facts about means and weighted averages -/
lemma listMean_singleton {α : Type} [Field α] (x : α) : listMean [x] = x := by
  simp [listMean]

lemma sum_map_mul_left_list {α : Type} [Field α] (w : α) (qs : List α) :
    (qs.map (fun v => w * v)).sum = w * qs.sum := by
  induction qs with
  | nil => simp
  | cons q qs ih => simp [ih, mul_add]

lemma sum_map_mul_getD {α : Type} [Field α] (w : α) (i : ℕ) (vss : List (List α)) :
    (vss.map (fun vs => w * vs.getD i 0)).sum = w * (vss.map (fun vs => vs.getD i 0)).sum := by
  induction vss with
  | nil => simp
  | cons vs vss ih =>
    rw [List.map_cons, List.map_cons, List.sum_cons, List.sum_cons, ih, mul_add]

lemma zipWith_mul_replicate {α : Type} [Field α] (qs : List α) (w : α) :
    List.zipWith (fun w v => w * v) (List.replicate qs.length w) qs =
      qs.map (fun v => w * v) := by
  induction qs with
  | nil => simp
  | cons q qs ih =>
    rw [List.length_cons, List.replicate_succ, List.zipWith_cons_cons, List.map_cons, ih]

/-- Equal weights renormalise to the plain mean: `np.average` with a
constant non-zero weight vector is `np.mean`. -/
lemma wavgNum_replicate {α : Type} [Field α] [DecidableEq α] [CharZero α]
    (qs : List α) (w : α) (hw : w ≠ 0) (hq : qs ≠ []) :
    wavgNum qs (List.replicate qs.length w) = some (listMean qs) := by
  have hlen : (List.replicate qs.length w).length = qs.length := by simp
  have hn : (qs.length : α) ≠ 0 := by
    exact_mod_cast Nat.cast_ne_zero.2 (fun h => hq (List.length_eq_zero.1 h))
  have hsum : (List.replicate qs.length w).sum = (qs.length : α) * w := by
    simp [List.sum_replicate, nsmul_eq_mul]
  have hsne : (List.replicate qs.length w).sum ≠ 0 := by
    rw [hsum]
    exact mul_ne_zero hn hw
  unfold wavgNum
  rw [if_pos ⟨hlen, hsne⟩, zipWith_mul_replicate, hsum, sum_map_mul_left_list]
  unfold listMean
  congr 1
  field_simp
  try ring

lemma zipWith_mul_getD_replicate {α : Type} [Field α] (vss : List (List α)) (w : α) (i : ℕ) :
    List.zipWith (fun w vs => w * vs.getD i 0) (List.replicate vss.length w) vss =
      vss.map (fun vs => w * vs.getD i 0) := by
  induction vss with
  | nil => simp
  | cons vs vss ih =>
    rw [List.length_cons, List.replicate_succ, List.zipWith_cons_cons, List.map_cons, ih]

/-- Equal weights renormalise to the component-wise mean on arrays. -/
lemma wavgArr_replicate {α : Type} [Field α] [DecidableEq α] [CharZero α]
    (vss : List (List α)) (w : α) (hw : w ≠ 0) (hne : vss ≠ []) (hs : sameLen vss) :
    wavgArr vss (List.replicate vss.length w) =
      some ((List.range (vss.headD []).length).map
        (fun i => (vss.map (fun vs => vs.getD i 0)).sum / (vss.length : α))) := by
  have hlen : (List.replicate vss.length w).length = vss.length := by simp
  have hn : (vss.length : α) ≠ 0 := by
    exact_mod_cast Nat.cast_ne_zero.2 (fun h => hne (List.length_eq_zero.1 h))
  have hsum : (List.replicate vss.length w).sum = (vss.length : α) * w := by
    simp [List.sum_replicate, nsmul_eq_mul]
  have hsne : (List.replicate vss.length w).sum ≠ 0 := by
    rw [hsum]
    exact mul_ne_zero hn hw
  unfold wavgArr
  rw [if_pos ⟨hs, hlen, hsne⟩, hsum]
  refine congrArg some (List.map_congr_left ?_)
  intro i _
  rw [zipWith_mul_getD_replicate, sum_map_mul_getD]
  field_simp
  try ring

/-- Reading an entire list back through `getD` over its index range. -/
lemma getD_range_eq_self {α : Type} [Field α] (a : List α) :
    (List.range a.length).map (fun i => a.getD i 0) = a := by
  induction a with
  | nil => simp
  | cons x a ih =>
    rw [List.length_cons, List.range_succ_eq_map, List.map_cons, List.map_map]
    simp only [List.getD_cons_zero, List.cons.injEq, true_and]
    have hcomp : ((fun i => (x :: a).getD i 0) ∘ Nat.succ) = (fun i => a.getD i 0) := by
      funext i
      simp [List.getD_cons_succ]
    rw [hcomp, ih]

/-- A singleton weighted scalar average is the value itself. -/
lemma wavgNum_singleton {α : Type} [Field α] [DecidableEq α] (q w : α) (hw : w ≠ 0) :
    wavgNum [q] [w] = some q := by
  unfold wavgNum
  rw [if_pos ⟨rfl, by simpa using hw⟩]
  refine congrArg some ?_
  simp only [List.zipWith_cons_cons, List.zipWith_nil_right, List.sum_cons, List.sum_nil,
    add_zero]
  field_simp

/-- A singleton weighted array average is the array itself. -/
lemma wavgArr_singleton {α : Type} [Field α] [DecidableEq α] (a : List α) (w : α) (hw : w ≠ 0) :
    wavgArr [a] [w] = some a := by
  unfold wavgArr
  rw [if_pos ⟨by simp [sameLen], rfl, by simpa using hw⟩]
  refine congrArg some ?_
  have hpt : ∀ i ∈ List.range a.length,
      (List.zipWith (fun w vs => w * vs.getD i 0) [w] [a]).sum / [w].sum = a.getD i 0 := by
    intro i _
    simp only [List.zipWith_cons_cons, List.zipWith_nil_right, List.sum_cons, List.sum_nil,
      add_zero]
    field_simp
    try ring
  rw [List.headD_cons, List.map_congr_left hpt, getD_range_eq_self a]

/-! ### Substring matching and the prompt matcher -/
lemma isPrefixB_iff (n h : List Char) : isPrefixB n h = true ↔ n <+: h := by
  induction n generalizing h with
  | nil => simp [isPrefixB]
  | cons a as ih =>
    cases h with
    | nil => simp [isPrefixB]
    | cons b bs =>
      rw [isPrefixB, List.cons_prefix_cons]
      simp [ih, and_comm]

lemma isSubListB_iff (n h : List Char) : isSubListB n h = true ↔ n <:+: h := by
  induction h with
  | nil =>
    simp only [isSubListB, List.isEmpty_iff]
    constructor
    · rintro rfl
      exact List.infix_rfl
    · intro hn
      exact List.eq_nil_of_infix_nil hn
  | cons c rest ih =>
    rw [isSubListB, List.infix_cons_iff, Bool.or_eq_true, isPrefixB_iff, ih]

/-- Python `w in hay` agrees with list-infix on the characters. -/
lemma strContains_iff (hay w : String) :
    strContains hay w = true ↔ w.toList <:+: hay.toList := by
  unfold strContains
  exact isSubListB_iff _ _

lemma matchStep_eq_addAll {α : Type} (atomic : List (String × FDict α))
    (acc : List String) (w : String) :
    matchStep atomic acc w = addAll acc (matchHits atomic w) := rfl

/-- Membership in the matched-sounds set: a sound is matched iff some
prompt word hits it directly (semantic map, restricted to learned
sounds) or via the substring fallback. -/
lemma mem_matched_sounds {α : Type} (atomic : List (String × FDict α))
    (prompt : String) (s : String) :
    s ∈ matched_sounds atomic prompt ↔
      ∃ w ∈ wordsOf prompt,
        (s ∈ (semantic_map.lookup w).getD [] ∧ (atomic.lookup s).isSome) ∨
        (w.toList <:+: s.toList ∧ s ∈ atomic.map Prod.fst) := by
  unfold matched_sounds
  suffices hfold : ∀ (ws : List String) (acc : List String),
      s ∈ ws.foldl (matchStep atomic) acc ↔ s ∈ acc ∨ ∃ w ∈ ws, s ∈ matchHits atomic w by
    rw [hfold (wordsOf prompt) []]
    simp only [List.not_mem_nil, false_or]
    constructor
    · rintro ⟨w, hw, hs⟩
      refine ⟨w, hw, ?_⟩
      unfold matchHits at hs
      rw [List.mem_append, List.mem_filter, List.mem_filter] at hs
      rcases hs with ⟨hm, hsome⟩ | ⟨hm, hsub⟩
      · exact Or.inl ⟨hm, hsome⟩
      · exact Or.inr ⟨(strContains_iff s w).1 hsub, hm⟩
    · rintro ⟨w, hw, hs⟩
      refine ⟨w, hw, ?_⟩
      unfold matchHits
      rw [List.mem_append, List.mem_filter, List.mem_filter]
      rcases hs with ⟨hm, hsome⟩ | ⟨hsub, hm⟩
      · exact Or.inl ⟨hm, hsome⟩
      · exact Or.inr ⟨hm, (strContains_iff s w).2 hsub⟩
  intro ws
  induction ws with
  | nil => intro acc; simp
  | cons w ws ih =>
    intro acc
    rw [List.foldl_cons, matchStep_eq_addAll, ih (addAll acc (matchHits atomic w)),
      mem_addAll]
    simp only [List.mem_cons]
    constructor
    · rintro ((h | h) | ⟨w', hw', hs⟩)
      · exact Or.inl h
      · exact Or.inr ⟨w, Or.inl rfl, h⟩
      · exact Or.inr ⟨w', Or.inr hw', hs⟩
    · rintro (h | ⟨w', (rfl | hw'), hs⟩)
      · exact Or.inl (Or.inl h)
      · exact Or.inl (Or.inr hs)
      · exact Or.inr ⟨w', hw', hs⟩

/-- Every matched sound is a learned sound name. -/
lemma matched_sounds_subset_atomic {α : Type} (atomic : List (String × FDict α))
    (prompt : String) (s : String) (h : s ∈ matched_sounds atomic prompt) :
    (atomic.lookup s).isSome := by
  rw [mem_matched_sounds] at h
  obtain ⟨w, _, h | h⟩ := h
  · exact h.2
  · exact (lookup_isSome_iff atomic s).2 h.2

lemma nodupKeysB_iff (l : List String) : nodupKeysB l = true ↔ l.Nodup := by
  induction l with
  | nil => simp [nodupKeysB]
  | cons k rest ih =>
    rw [nodupKeysB, Bool.and_eq_true, ih, List.nodup_cons, Bool.not_eq_true']
    constructor
    · rintro ⟨hc, hnd⟩
      refine ⟨fun hm => ?_, hnd⟩
      rw [List.elem_eq_true_of_mem hm] at hc
      cases hc
    · rintro ⟨hm, hnd⟩
      refine ⟨?_, hnd⟩
      cases he : List.elem k rest
      · rfl
      · exact absurd (List.mem_of_elem_eq_true he) hm

lemma wfList_lookup {α : Type} (d : List (String × FVal α)) (k : String) (v : FVal α)
    (hwf : FVal.wfList d = true) (h : d.lookup k = some v) : FVal.wfB v = true := by
  induction d with
  | nil => simp [List.lookup] at h
  | cons p rest ih =>
    obtain ⟨a, w⟩ := p
    rw [FVal.wfList, Bool.and_eq_true] at hwf
    rw [List.lookup] at h
    by_cases hk : k = a
    · simp [hk] at h
      subst h
      exact hwf.1
    · rw [beq_false_of_ne hk] at h
      exact ih hwf.2 h

lemma all_lookup {α : Type} (P : FVal α → Bool) (d : List (String × FVal α))
    (k : String) (v : FVal α) (hall : d.all (fun p => P p.2) = true)
    (h : d.lookup k = some v) : P v = true := by
  induction d with
  | nil => simp [List.lookup] at h
  | cons p rest ih =>
    obtain ⟨a, w⟩ := p
    rw [List.all_cons, Bool.and_eq_true] at hall
    rw [List.lookup] at h
    by_cases hk : k = a
    · simp [hk] at h
      subst h
      exact hall.1
    · rw [beq_false_of_ne hk] at h
      exact ih hall.2 h

lemma collectAt_singleton_none {α : Type} (k : String) (d : FDict α)
    (h : d.lookup k = none) : collectAt k [d] = [] := by
  unfold collectAt
  simp [h]

lemma collectAt_singleton_some {α : Type} (k : String) (d : FDict α) (v : FVal α)
    (h : d.lookup k = some v) : collectAt k [d] = [v] := by
  unfold collectAt
  simp [h]

lemma addAll_eq_append (l acc : List String) (hnd : l.Nodup)
    (hdisj : ∀ x ∈ l, x ∉ acc) : addAll acc l = acc ++ l := by
  induction l generalizing acc with
  | nil => simp [addAll]
  | cons x l ih =>
    rw [List.nodup_cons] at hnd
    rw [addAll, List.foldl_cons]
    have hx : insSet acc x = acc ++ [x] := by
      unfold insSet
      rw [if_neg (hdisj x (List.mem_cons_self x l))]
    rw [hx]
    have := ih (acc ++ [x]) hnd.2 (fun y hy => by
      rw [List.mem_append, List.mem_singleton]
      rintro (hacc | rfl)
      · exact hdisj y (List.mem_cons_of_mem x hy) hacc
      · exact hnd.1 hy)
    rw [addAll] at this
    rw [this, List.append_assoc, List.singleton_append]

lemma keysUnion_singleton {α : Type} (d : FDict α) (h : (d.map Prod.fst).Nodup) :
    keysUnion [d] = d.map Prod.fst := by
  unfold keysUnion
  rw [List.foldl_cons, List.foldl_nil]
  exact addAll_eq_append (d.map Prod.fst) [] h (fun x _ => List.not_mem_nil x)

lemma filterMap_congr_list {β γ : Type} (l : List β) (f g : β → Option γ)
    (h : ∀ a ∈ l, f a = g a) : l.filterMap f = l.filterMap g := by
  induction l with
  | nil => rfl
  | cons a l ih =>
    rw [List.filterMap_cons, List.filterMap_cons, h a (List.mem_cons_self a l),
      ih (fun b hb => h b (List.mem_cons_of_mem a hb))]

/-- Reconstructing a dictionary from lookups along its own key list. -/
lemma filterMap_lookup_self {α : Type} (d : FDict α) (hnd : (d.map Prod.fst).Nodup) :
    (d.map Prod.fst).filterMap (fun k => (d.lookup k).map (fun v => (k, v))) = d := by
  induction d with
  | nil => rfl
  | cons p rest ih =>
    obtain ⟨k0, v0⟩ := p
    rw [List.map_cons] at hnd ⊢
    rw [List.nodup_cons] at hnd
    have h0 : (fun k => (List.lookup k ((k0, v0) :: rest)).map (fun v => (k, v))) k0 =
        some (k0, v0) := by
      simp only [List.lookup, beq_self_eq_true]
      rfl
    rw [@List.filterMap_cons_some _ _
      (fun k => (List.lookup k ((k0, v0) :: rest)).map (fun v => (k, v)))
      ((k0, v0).1) (rest.map Prod.fst) (k0, v0) h0]
    have hcong : ∀ k ∈ rest.map Prod.fst,
        (List.lookup k ((k0, v0) :: rest)).map (fun v => (k, v)) =
          (List.lookup k rest).map (fun v => (k, v)) := by
      intro k hk
      have hne : k ≠ k0 := fun he => hnd.1 (he ▸ hk)
      rw [List.lookup, beq_false_of_ne hne]
    rw [filterMap_congr_list _ _ _ hcong, ih hnd.2]

/-- Evaluating `_average_features` on the per-key singleton list of values. -/
lemma avgEntries_singleton_keys {α : Type} [Field α] (d : FDict α) (ks : List String)
    (h : ∀ k ∈ ks, ∀ v, d.lookup k = some v → avgVal [v] = some v) :
    avgEntries ks [d] = some (ks.filterMap (fun k => (d.lookup k).map (fun v => (k, v)))) := by
  induction ks with
  | nil => rw [avgEntries, List.filterMap_nil]
  | cons k ks ih =>
    cases hv : d.lookup k with
    | none =>
      have hf : (List.lookup k d).map (fun v => (k, v)) = none := by rw [hv]; rfl
      rw [avgEntries_cons_nil k ks [d] (collectAt_singleton_none k d hv),
        @List.filterMap_cons_none _ _ (fun k => (List.lookup k d).map (fun v => (k, v)))
          k ks hf]
      exact ih (fun k' hk' => h k' (List.mem_cons_of_mem k hk'))
    | some v =>
      have hf : (List.lookup k d).map (fun v => (k, v)) = some (k, v) := by rw [hv]; rfl
      rw [avgEntries_cons_some k ks [d] v [] (collectAt_singleton_some k d v hv),
        @List.filterMap_cons_some _ _ (fun k => (List.lookup k d).map (fun v => (k, v)))
          k ks (k, v) hf,
        h k (List.mem_cons_self k ks) v hv,
        ih (fun k' hk' => h k' (List.mem_cons_of_mem k hk'))]
      rfl

lemma arrMean_singleton {α : Type} [Field α] (a : List α) : arrMean [a] = a := by
  show (List.range a.length).map (fun i => listMean ([a].map (fun ys => ys.getD i 0))) = a
  have h : ∀ i ∈ List.range a.length,
      listMean ([a].map (fun ys => ys.getD i 0)) = a.getD i 0 := by
    intro i _
    simp [listMean_singleton]
  rw [List.map_congr_left h, getD_range_eq_self]

/-- Averaging a single well-formed value is the identity. -/
lemma avgVal_singleton {α : Type} [Field α] (n : ℕ) :
    ∀ v : FVal α, FVal.tsize v ≤ n → FVal.wfB v = true → avgVal [v] = some v := by
  induction n with
  | zero =>
    intro v hsz _
    cases v <;> simp [FVal.tsize] at hsz
  | succ n ih =>
    intro v hsz hwf
    cases v with
    | num q => simp [avgVal, toNums, listMean_singleton]
    | arr a =>
      simp only [avgVal, toArrs, Option.map_some', Option.some_bind]
      rw [if_pos (by simp [sameLen]), arrMean_singleton]
    | dict d =>
      rw [FVal.wfB, Bool.and_eq_true, nodupKeysB_iff] at hwf
      simp only [avgVal, toDicts, Option.map_some', Option.some_bind]
      rw [keysUnion_singleton d hwf.1]
      rw [avgEntries_singleton_keys d (d.map Prod.fst) (fun k _ v hv => by
        refine ih v ?_ (wfList_lookup d k v hwf.2 hv)
        have h1 := lookup_tsize_le d k v hv
        have h2 : FVal.tsize (FVal.dict d) ≤ n + 1 := hsz
        rw [FVal.tsize] at h2
        omega)]
      rw [filterMap_lookup_self d hwf.1]
      rfl

/-- Averaging with `_average_features` on a single well-formed dictionary is the
identity. -/
lemma average_features_singleton {α : Type} [Field α] (f : FDict α)
    (h : FDict.wfB f = true) : average_features [f] = some f := by
  rw [FDict.wfB, Bool.and_eq_true, nodupKeysB_iff] at h
  unfold average_features
  rw [if_neg (by simp), keysUnion_singleton f h.1]
  rw [avgEntries_singleton_keys f (f.map Prod.fst) (fun k _ v hv => by
    refine avgVal_singleton (FVal.tsize v) v le_rfl (wfList_lookup f k v h.2 hv))]
  exact congrArg some (filterMap_lookup_self f h.1)

/-- Blending a single non-dictionary value with one non-zero weight is
the identity. -/
lemma blendDictVal_singleton {α : Type} [Field α] [DecidableEq α] (v : FVal α) (w : α)
    (hw : w ≠ 0) (hv : FVal.depth2B v = true ∨ ∀ d, v ≠ FVal.dict d) :
    (∀ d, v ≠ FVal.dict d) → blendDictVal [v] [w] = some v := by
  intro hnd
  cases v with
  | num q =>
    simp only [blendDictVal, toNums, Option.map_some', Option.some_bind, List.length_cons,
      List.length_nil, List.take]
    rw [wavgNum_singleton q w hw]
    rfl
  | arr a =>
    simp only [blendDictVal, toArrs, Option.map_some', Option.some_bind, List.length_cons,
      List.length_nil, List.take]
    rw [wavgArr_singleton a w hw]
    rfl
  | dict d => exact absurd rfl (hnd d)

/-- Evaluating `_blend_dict_values` on the per-key singleton list of values. -/
lemma blendDictEntries_singleton_keys {α : Type} [Field α] [DecidableEq α]
    (d : FDict α) (w : α) (ks : List String)
    (h : ∀ k ∈ ks, ∀ v, d.lookup k = some v → blendDictVal [v] [w] = some v) :
    blendDictEntries ks [d] [w] =
      some (ks.filterMap (fun k => (d.lookup k).map (fun v => (k, v)))) := by
  induction ks with
  | nil => rw [blendDictEntries, List.filterMap_nil]
  | cons k ks ih =>
    cases hv : d.lookup k with
    | none =>
      have hf : (List.lookup k d).map (fun v => (k, v)) = none := by rw [hv]; rfl
      rw [blendDictEntries_cons_nil k ks [d] [w] (collectAt_singleton_none k d hv),
        @List.filterMap_cons_none _ _ (fun k => (List.lookup k d).map (fun v => (k, v)))
          k ks hf]
      exact ih (fun k' hk' => h k' (List.mem_cons_of_mem k hk'))
    | some v =>
      have hf : (List.lookup k d).map (fun v => (k, v)) = some (k, v) := by rw [hv]; rfl
      rw [blendDictEntries_cons_some k ks [d] [w] v [] (collectAt_singleton_some k d v hv),
        @List.filterMap_cons_some _ _ (fun k => (List.lookup k d).map (fun v => (k, v)))
          k ks (k, v) hf,
        h k (List.mem_cons_self k ks) v hv,
        ih (fun k' hk' => h k' (List.mem_cons_of_mem k hk'))]
      rfl

/-- Blending with `_blend_dict_values` of one well-formed depth-two dictionary with one
non-zero weight is the identity. -/
lemma blend_dict_values_singleton {α : Type} [Field α] [DecidableEq α]
    (d : FDict α) (w : α) (hw : w ≠ 0) (hnd : (d.map Prod.fst).Nodup)
    (h2 : d.all (fun p => match p.2 with | FVal.dict _ => false | _ => true) = true) :
    blend_dict_values [d] [w] = some d := by
  unfold blend_dict_values
  rw [keysUnion_singleton d hnd]
  rw [blendDictEntries_singleton_keys d w (d.map Prod.fst) (fun k _ v hv => by
    refine blendDictVal_singleton v w hw (Or.inr ?_) ?_ <;>
    · intro d' he
      have := all_lookup
        (fun v => match v with | FVal.dict _ => false | _ => true) d k v h2 hv
      rw [he] at this
      simp at this)]
  exact congrArg some (filterMap_lookup_self d hnd)

/-- Blending a single well-formed depth-two value with one non-zero
weight is the identity. -/
lemma blendVal_singleton {α : Type} [Field α] [DecidableEq α] (v : FVal α) (w : α)
    (hw : w ≠ 0) (hwf : FVal.wfB v = true) (h2 : FVal.depth2B v = true) :
    blendVal [(v, w)] = some v := by
  cases v with
  | num q =>
    simp only [blendVal, List.map_cons, List.map_nil, toNums, Option.map_some',
      Option.some_bind]
    rw [wavgNum_singleton q w hw]
    rfl
  | arr a =>
    simp only [blendVal, List.map_cons, List.map_nil, toArrs, Option.map_some',
      Option.some_bind]
    rw [wavgArr_singleton a w hw]
    rfl
  | dict d =>
    rw [FVal.wfB, Bool.and_eq_true, nodupKeysB_iff] at hwf
    rw [FVal.depth2B] at h2
    simp only [blendVal, List.map_cons, List.map_nil, toDicts, Option.map_some',
      Option.some_bind]
    rw [blend_dict_values_singleton d w hw hwf.1 h2]
    rfl

lemma presentPairs_singleton_none {α : Type} (k : String) (p : FDict α) (w : α)
    (h : p.lookup k = none) : presentPairs k [p] [w] = [] := by
  unfold presentPairs
  simp [h]

lemma presentPairs_singleton_some {α : Type} (k : String) (p : FDict α) (w : α)
    (v : FVal α) (h : p.lookup k = some v) : presentPairs k [p] [w] = [(v, w)] := by
  unfold presentPairs
  simp [h]

/-- The `_blend_sounds` entry loop on a single latent with one weight. -/
lemma blendEntries_singleton_keys {α : Type} [Field α] [DecidableEq α]
    (p : FDict α) (w : α) (ks : List String)
    (h : ∀ k ∈ ks, ∀ v, p.lookup k = some v → blendVal [(v, w)] = some v) :
    blendEntries ks [p] [w] =
      some (ks.filterMap (fun k => (p.lookup k).map (fun v => (k, v)))) := by
  induction ks with
  | nil => rw [blendEntries, List.filterMap_nil]
  | cons k ks ih =>
    cases hv : p.lookup k with
    | none =>
      have hf : (List.lookup k p).map (fun v => (k, v)) = none := by rw [hv]; rfl
      rw [blendEntries_cons_nil k ks [p] [w] (presentPairs_singleton_none k p w hv),
        @List.filterMap_cons_none _ _ (fun k => (List.lookup k p).map (fun v => (k, v)))
          k ks hf]
      exact ih (fun k' hk' => h k' (List.mem_cons_of_mem k hk'))
    | some v =>
      have hf : (List.lookup k p).map (fun v => (k, v)) = some (k, v) := by rw [hv]; rfl
      rw [blendEntries_cons_some k ks [p] [w] (v, w) [] (presentPairs_singleton_some k p w v hv),
        @List.filterMap_cons_some _ _ (fun k => (List.lookup k p).map (fun v => (k, v)))
          k ks (k, v) hf,
        h k (List.mem_cons_self k ks) v hv,
        ih (fun k' hk' => h k' (List.mem_cons_of_mem k hk'))]
      rfl

/-- Blending with `_blend_sounds` on a single learned sound with default weights
returns the stored prototype unchanged. -/
lemma blend_sounds_singleton {α : Type} [Field α] [DecidableEq α]
    (atomic : List (String × FDict α)) (name : String) (proto : FDict α)
    (hlk : atomic.lookup name = some proto)
    (hwf : FDict.wfB proto = true) (h2 : FDict.depth2B proto = true) :
    blend_sounds atomic [name] none = some proto := by
  rw [FDict.wfB, Bool.and_eq_true, nodupKeysB_iff] at hwf
  have hw : (1 : α) / ((1 : ℕ) : α) ≠ 0 := by simp
  unfold blend_sounds resolveWeights
  simp only [List.length_cons, List.length_nil, Nat.zero_add, Option.bind_eq_bind]
  rw [if_neg (by simp)]
  simp only [List.replicate, Option.some_bind]
  unfold lookupAll lookupAll
  rw [hlk]
  simp only [Option.some_bind, Option.map_some', Option.some_bind]
  rw [keysUnion_singleton proto hwf.1]
  rw [blendEntries_singleton_keys proto _ (proto.map Prod.fst) (fun k _ v hv => by
    refine blendVal_singleton v _ (by simpa using hw) (wfList_lookup proto k v hwf.2 hv) ?_
    exact all_lookup FVal.depth2B proto k v h2 hv)]
  exact congrArg some (filterMap_lookup_self proto hwf.1)

/-! ### Shape lemmas for homogeneous value lists -/
lemma toNums_eq_map {α : Type} (vs : List (FVal α)) (qs : List α)
    (h : toNums vs = some qs) : vs = qs.map FVal.num := by
  induction vs generalizing qs with
  | nil =>
    simp only [toNums, Option.some.injEq] at h
    subst h
    rfl
  | cons v vs ih =>
    cases v with
    | num q =>
      rw [toNums, Option.map_eq_some'] at h
      obtain ⟨qs', hqs', rfl⟩ := h
      rw [List.map_cons, ih qs' hqs']
    | arr a => simp [toNums] at h
    | dict d => simp [toNums] at h

lemma toArrs_eq_map {α : Type} (vs : List (FVal α)) (as : List (List α))
    (h : toArrs vs = some as) : vs = as.map FVal.arr := by
  induction vs generalizing as with
  | nil =>
    simp only [toArrs, Option.some.injEq] at h
    subst h
    rfl
  | cons v vs ih =>
    cases v with
    | arr a =>
      rw [toArrs, Option.map_eq_some'] at h
      obtain ⟨as', has', rfl⟩ := h
      rw [List.map_cons, ih as' has']
    | num q => simp [toArrs] at h
    | dict d => simp [toArrs] at h

lemma toDicts_eq_map {α : Type} (vs : List (FVal α)) (ds : List (FDict α))
    (h : toDicts vs = some ds) : vs = ds.map FVal.dict := by
  induction vs generalizing ds with
  | nil =>
    simp only [toDicts, Option.some.injEq] at h
    subst h
    rfl
  | cons v vs ih =>
    cases v with
    | dict d =>
      rw [toDicts, Option.map_eq_some'] at h
      obtain ⟨ds', hds', rfl⟩ := h
      rw [List.map_cons, ih ds' hds']
    | num q => simp [toDicts] at h
    | arr a => simp [toDicts] at h

lemma toNums_of_map {α : Type} (qs : List α) : toNums (qs.map FVal.num) = some qs := by
  induction qs with
  | nil => rfl
  | cons q qs ih => rw [List.map_cons, toNums, ih]; rfl

lemma toArrs_of_map {α : Type} (as : List (List α)) : toArrs (as.map FVal.arr) = some as := by
  induction as with
  | nil => rfl
  | cons a as ih => rw [List.map_cons, toArrs, ih]; rfl

lemma toDicts_of_map {α : Type} (ds : List (FDict α)) :
    toDicts (ds.map FVal.dict) = some ds := by
  induction ds with
  | nil => rfl
  | cons d ds ih => rw [List.map_cons, toDicts, ih]; rfl

/-- The collected values at a key are never more numerous than the
dictionaries. -/
lemma collectAt_length_le {α : Type} (k : String) (fs : List (FDict α)) :
    (collectAt k fs).length ≤ fs.length :=
  List.length_filterMap_le _ _

/-! ### Success extraction for the averaging recursion -/
lemma avgEntries_success {α : Type} [Field α] (ks : List String)
    (fs : List (FDict α)) (g : FDict α) (h : avgEntries ks fs = some g)
    (k : String) (hk : k ∈ ks) (v : FVal α) (vs : List (FVal α))
    (hc : collectAt k fs = v :: vs) : ∃ r, avgVal (v :: vs) = some r := by
  induction ks generalizing g with
  | nil => exact absurd hk (List.not_mem_nil k)
  | cons k' ks ih =>
    by_cases hkk : k = k'
    · subst hkk
      rw [avgEntries_cons_some k ks fs v vs hc] at h
      simp only [Option.bind_eq_some] at h
      obtain ⟨r, hr, _⟩ := h
      exact ⟨r, hr⟩
    · cases hc' : collectAt k' fs with
      | nil =>
        rw [avgEntries_cons_nil k' ks fs hc'] at h
        exact ih g h (List.mem_of_ne_of_mem hkk hk)
      | cons v' vs' =>
        rw [avgEntries_cons_some k' ks fs v' vs' hc'] at h
        simp only [Option.bind_eq_some, Option.map_eq_some'] at h
        obtain ⟨r, _, rest, hrest, _⟩ := h
        exact ih rest hrest (List.mem_of_ne_of_mem hkk hk)

/-- On a non-empty list `_average_features` is the key loop over the key
union. -/
lemma average_features_of_ne_nil {α : Type} [Field α] (fs : List (FDict α))
    (h : fs ≠ []) : average_features fs = avgEntries (keysUnion fs) fs := by
  unfold average_features
  rw [if_neg (by simp [h])]

/-- If `_average_features` succeeds and a key has values, the per-key
average succeeded and is stored. -/
lemma average_features_success {α : Type} [Field α] (fs : List (FDict α))
    (g : FDict α) (h : average_features fs = some g) (k : String)
    (v : FVal α) (vs : List (FVal α)) (hc : collectAt k fs = v :: vs) :
    ∃ r, avgVal (v :: vs) = some r ∧ g.lookup k = some r := by
  have hfs : fs ≠ [] := by
    rintro rfl
    simp [collectAt] at hc
  rw [average_features_of_ne_nil fs hfs] at h
  have hmem : k ∈ keysUnion fs := by
    have : ∃ f ∈ fs, (f.lookup k).isSome := by
      by_contra hno
      push_neg at hno
      have : collectAt k fs = [] := by
        rw [collectAt_eq_nil_iff]
        intro f hf
        have := hno f hf
        cases hl : f.lookup k with
        | none => rfl
        | some w => rw [hl] at this; simp at this
      rw [this] at hc
      cases hc
    obtain ⟨f, hf, hs⟩ := this
    exact (mem_keysUnion fs k).2 ⟨f, hf, (lookup_isSome_iff f k).1 hs⟩
  obtain ⟨r, hr⟩ := avgEntries_success (keysUnion fs) fs g h k hmem v vs hc
  refine ⟨r, hr, ?_⟩
  rw [avgEntries_lookup (keysUnion fs) fs g h k, if_pos hmem, hc, hr]

/-! ### Present pairs under uniform weights -/
lemma presentPairs_fst {α : Type} (k : String) (latents : List (FDict α))
    (ws : List α) (hlen : ws.length = latents.length) :
    (presentPairs k latents ws).map Prod.fst = collectAt k latents := by
  induction latents generalizing ws with
  | nil => simp [presentPairs, collectAt]
  | cons f latents ih =>
    cases ws with
    | nil => simp at hlen
    | cons w ws =>
      simp only [List.length_cons, Nat.succ.injEq] at hlen
      unfold presentPairs collectAt
      rw [List.zip_cons_cons, List.filterMap_cons, List.filterMap_cons]
      cases hl : f.lookup k with
      | none =>
        simpa [hl] using ih ws hlen
      | some v =>
        simp only [hl, Option.map_some', List.map_cons]
        have := ih ws hlen
        unfold presentPairs collectAt at this
        rw [this]

lemma presentPairs_snd_mem {α : Type} (k : String) (latents : List (FDict α))
    (ws : List α) (p : FVal α × α) (hp : p ∈ presentPairs k latents ws) :
    p.2 ∈ ws := by
  unfold presentPairs at hp
  rw [List.mem_filterMap] at hp
  obtain ⟨⟨f, w⟩, hmem, hmap⟩ := hp
  cases hl : f.lookup k with
  | none => rw [hl] at hmap; cases hmap
  | some v =>
    rw [hl] at hmap
    cases hmap
    exact (List.of_mem_zip hmem).2

/-- Under a constant weight list the present weights are constant. -/
lemma presentPairs_snd_replicate {α : Type} (k : String) (latents : List (FDict α))
    (n : ℕ) (w : α) (hlen : n = latents.length) :
    (presentPairs k latents (List.replicate n w)).map Prod.snd =
      List.replicate (presentPairs k latents (List.replicate n w)).length w := by
  have hl : (presentPairs k latents (List.replicate n w)).length =
      ((presentPairs k latents (List.replicate n w)).map Prod.snd).length :=
    (List.length_map _ _).symm
  rw [hl]
  apply List.eq_replicate_of_mem
  intro x hx
  rw [List.mem_map] at hx
  obtain ⟨p, hp, rfl⟩ := hx
  exact List.eq_of_mem_replicate (presentPairs_snd_mem k latents _ p hp)

/-! ### Bounds on `tanh` and `clip` -/
lemma tanh_le_one (x : ℝ) : Real.tanh x ≤ 1 := by
  rw [Real.tanh_eq_sinh_div_cosh]
  rw [div_le_one (Real.cosh_pos x)]
  exact le_of_lt (Real.sinh_lt_cosh x)

lemma neg_one_le_tanh (x : ℝ) : -1 ≤ Real.tanh x := by
  rw [Real.tanh_eq_sinh_div_cosh]
  rw [le_div_iff (Real.cosh_pos x)]
  have h : 0 < Real.cosh x + Real.sinh x := by
    rw [Real.cosh_add_sinh]
    exact Real.exp_pos x
  linarith

lemma npclip01_bounds (x : ℝ) : 0 ≤ npclip01 x ∧ npclip01 x ≤ 1 := by
  unfold npclip01
  constructor
  · exact le_min zero_le_one (le_max_left 0 x)
  · exact min_le_left 1 _

/-! ### Lookup behaviour of the training fold -/
lemma lookup_append_right {β : Type} (m : List (String × β)) (k : String) (v : β)
    (h : m.lookup k = none) : (m ++ [(k, v)]).lookup k = some v := by
  induction m with
  | nil => simp [List.lookup]
  | cons p rest ih =>
    obtain ⟨a, b⟩ := p
    cases hba : (k == a) with
    | true =>
      simp only [List.lookup, hba] at h
      cases h
    | false =>
      rw [List.cons_append]
      simp only [List.lookup, hba] at h ⊢
      exact ih h

lemma lookup_append_left {β : Type} (m : List (String × β)) (k k' : String) (v : β)
    (h : k' ≠ k) : (m ++ [(k, v)]).lookup k' = m.lookup k' := by
  induction m with
  | nil => simp [List.lookup, beq_false_of_ne h]
  | cons p rest ih =>
    obtain ⟨a, b⟩ := p
    rw [List.cons_append]
    cases hba : (k' == a) with
    | true => simp only [List.lookup, hba]
    | false =>
      simp only [List.lookup, hba]
      exact ih

lemma lookup_map_replace_self {α : Type} (m : List (String × FDict α)) (k : String)
    (v : FDict α) (h : (m.lookup k).isSome) :
    (m.map (fun p => if p.1 = k then (k, v) else p)).lookup k = some v := by
  induction m with
  | nil => simp [List.lookup] at h
  | cons p rest ih =>
    obtain ⟨a, b⟩ := p
    by_cases hak : a = k
    · subst hak
      have hhead : (if ((a, b) : String × FDict α).1 = a then (a, v) else (a, b)) = (a, v) := by
        simp
      rw [List.map_cons, hhead]
      simp [List.lookup]
    · have hhead : (if ((a, b) : String × FDict α).1 = k then (k, v) else (a, b)) = (a, b) := by
        simp [hak]
      have hba : (k == a) = false := beq_false_of_ne (fun he => hak he.symm)
      rw [List.map_cons, hhead]
      simp only [List.lookup, hba] at h ⊢
      exact ih h

lemma dinsert_lookup_self {α : Type} (m : List (String × FDict α)) (k : String)
    (v : FDict α) : (dinsert m k v).lookup k = some v := by
  unfold dinsert
  by_cases h : (m.lookup k).isSome
  · rw [if_pos h]
    exact lookup_map_replace_self m k v h
  · rw [if_neg h]
    exact lookup_append_right m k v (Option.not_isSome_iff_eq_none.1 h)

lemma lookup_map_replace_ne {α : Type} (m : List (String × FDict α)) (k k' : String)
    (v : FDict α) (h : k' ≠ k) :
    (m.map (fun p => if p.1 = k then (k, v) else p)).lookup k' = m.lookup k' := by
  induction m with
  | nil => rfl
  | cons p rest ih =>
    obtain ⟨a, b⟩ := p
    by_cases hak : a = k
    · subst hak
      have hhead : (if ((a, b) : String × FDict α).1 = a then (a, v) else (a, b)) = (a, v) := by
        simp
      have hba : (k' == a) = false := beq_false_of_ne h
      rw [List.map_cons, hhead]
      simp only [List.lookup, hba]
      exact ih
    · have hhead : (if ((a, b) : String × FDict α).1 = k then (k, v) else (a, b)) = (a, b) := by
        simp [hak]
      rw [List.map_cons, hhead]
      cases hk : (k' == a) with
      | true => simp only [List.lookup, hk]
      | false =>
        simp only [List.lookup, hk]
        exact ih

lemma dinsert_lookup_ne {α : Type} (m : List (String × FDict α)) (k k' : String)
    (v : FDict α) (h : k' ≠ k) : (dinsert m k v).lookup k' = m.lookup k' := by
  unfold dinsert
  by_cases hs : (m.lookup k).isSome
  · rw [if_pos hs]
    exact lookup_map_replace_ne m k k' v h
  · rw [if_neg hs]
    exact lookup_append_left m k k' v h

/-- Categories whose name is not trained leave the store unchanged. -/
lemma train_lookup_not_mem {α : Type} [Field α] (cats : List (Category α))
    (acc m : List (String × FDict α)) (name : String)
    (h : train_atomic_sounds cats acc = some m)
    (hnm : name ∉ cats.map Category.name) :
    m.lookup name = acc.lookup name := by
  induction cats generalizing acc with
  | nil =>
    rw [train_atomic_sounds] at h
    cases h
    rfl
  | cons c cats ih =>
    rw [List.map_cons, List.mem_cons] at hnm
    push_neg at hnm
    rw [train_atomic_sounds] at h
    by_cases hss : (c.samples.filterMap id).isEmpty
    · rw [if_pos hss] at h
      exact ih acc h hnm.2
    · rw [if_neg hss] at h
      simp only [Option.bind_eq_some] at h
      obtain ⟨p, hp, htr⟩ := h
      rw [ih (dinsert acc c.name p) htr hnm.2,
        dinsert_lookup_ne acc c.name name p hnm.1]

/-- The per-category behaviour of the training fold: a category with no
successful sample leaves its entry untouched; a category with at least
one successful sample stores the average of its successful samples. -/
lemma train_lookup_mem {α : Type} [Field α] (cats : List (Category α))
    (acc m : List (String × FDict α))
    (h : train_atomic_sounds cats acc = some m)
    (hnd : (cats.map Category.name).Nodup)
    (c : Category α) (hc : c ∈ cats) :
    (c.samples.filterMap id = [] → m.lookup c.name = acc.lookup c.name) ∧
    (c.samples.filterMap id ≠ [] → ∃ p,
      average_features (c.samples.filterMap id) = some p ∧
      m.lookup c.name = some p) := by
  induction cats generalizing acc with
  | nil => exact absurd hc (List.not_mem_nil c)
  | cons c0 cats ih =>
    rw [List.map_cons, List.nodup_cons] at hnd
    rw [train_atomic_sounds] at h
    rcases List.mem_cons.1 hc with rfl | hc'
    · by_cases hss : (c.samples.filterMap id).isEmpty
      · rw [if_pos hss] at h
        constructor
        · intro _
          exact train_lookup_not_mem cats acc m c.name h hnd.1
        · intro hne
          exact absurd (List.isEmpty_iff.1 hss) hne
      · rw [if_neg hss] at h
        simp only [Option.bind_eq_some] at h
        obtain ⟨p, hp, htr⟩ := h
        constructor
        · intro he
          rw [he] at hss
          simp at hss
        · intro _
          refine ⟨p, hp, ?_⟩
          rw [train_lookup_not_mem cats (dinsert acc c.name p) m c.name htr hnd.1,
            dinsert_lookup_self acc c.name p]
    · have hname : c.name ≠ c0.name := by
        intro he
        exact hnd.1 (he ▸ List.mem_map_of_mem Category.name hc')
      by_cases hss : (c0.samples.filterMap id).isEmpty
      · rw [if_pos hss] at h
        exact ih acc h hnd.2 hc'
      · rw [if_neg hss] at h
        simp only [Option.bind_eq_some] at h
        obtain ⟨p, hp, htr⟩ := h
        have := ih (dinsert acc c0.name p) htr hnd.2 hc'
        refine ⟨fun he => ?_, this.2⟩
        rw [this.1 he, dinsert_lookup_ne acc c0.name c.name p hname]

/-- Component-wise mean written out (`np.mean(values, axis=0)`). -/
lemma arrMean_formula {α : Type} [Field α] (as : List (List α)) (h : as ≠ []) :
    arrMean as = (List.range (as.headD []).length).map
      (fun i => (as.map (fun a => a.getD i 0)).sum / (as.length : α)) := by
  cases as with
  | nil => exact absurd rfl h
  | cons a as' =>
    show (List.range a.length).map
        (fun i => listMean ((a :: as').map (fun ys => ys.getD i 0))) = _
    refine List.map_congr_left ?_
    intro i _
    unfold listMean
    rw [List.length_map]

/-! ## Claim theorems -/
/-- C3: for every decoded audio clip (and any behaviour of the external
signal-processing primitives), `_extract_semantic_features` returns a
dictionary with exactly the ten keys `emotional_valence`, `energy_level`,
`temporal_complexity`, `harmonic_richness`, `spectral_trajectory`,
`textural_density`, `timbre_vector`, `onset_pattern`, `pitch_profile`,
`spatial_openness` — no key absent, no other key produced, independent of
the clip's content. -/
theorem C3_extractor_ten_keys (lib : Lib) (audio : List ℝ) (sr : ℕ) :
    (extract_semantic_features lib audio sr).map Prod.fst =
      ["emotional_valence", "energy_level", "temporal_complexity",
       "harmonic_richness", "spectral_trajectory", "textural_density",
       "timbre_vector", "onset_pattern", "pitch_profile", "spatial_openness"] := rfl

/-- C8: for every audio clip, `emotional_valence` and
`spectral_trajectory` lie in `[-1, 1]` and `spatial_openness` lies in
`[0, 1]`. -/
theorem C8_descriptor_bounds (lib : Lib) (audio : List ℝ) (sr : ℕ) :
    (-1 ≤ compute_valence lib audio sr ∧ compute_valence lib audio sr ≤ 1) ∧
    (-1 ≤ compute_spectral_motion lib audio sr ∧
      compute_spectral_motion lib audio sr ≤ 1) ∧
    (0 ≤ compute_spatial_quality lib audio sr ∧
      compute_spatial_quality lib audio sr ≤ 1) := by
  refine ⟨?_, ?_, ?_⟩
  · unfold compute_valence
    exact ⟨neg_one_le_tanh _, tanh_le_one _⟩
  · unfold compute_spectral_motion
    by_cases h : 1 < (lib.spectral_centroid audio sr).length
    · rw [if_pos h]
      exact ⟨neg_one_le_tanh _, tanh_le_one _⟩
    · rw [if_neg h]
      norm_num
  · unfold compute_spatial_quality
    exact npclip01_bounds _

/-- C5 counterexample: on the clip `[1, 1]` with harmonic component
`[1, 0]` and percussive component `[0, 1]`, the code computes
`1 / (2 + 1e-10)` (harmonic energy over total energy) while the claim's
harmonic-over-percussive ratio is `1`. -/
theorem C5_counterexample :
    compute_harmonic_content libC5 [1, 1] ≠ claimedHarmonicRichness libC5 [1, 1] := by
  unfold compute_harmonic_content claimedHarmonicRichness libC5 sumSq
  simp only [List.map_cons, List.map_nil, List.sum_cons, List.sum_nil]
  norm_num

/-- C5 (amended): the stored `harmonic_richness` descriptor is the energy
of the harmonic component divided by the total signal energy plus
`1e-10`, not by the percussive energy. -/
theorem C5_amended_harmonic_over_total (lib : Lib) (audio : List ℝ) (sr : ℕ) :
    (extract_semantic_features lib audio sr).lookup "harmonic_richness" =
      some (FVal.num (sumSq (lib.hpss audio).1 / (sumSq audio + 1e-10))) := by
  simp [extract_semantic_features, List.lookup, compute_harmonic_content]

/-- C7: `generate_scene_from_text` is deterministic and stateless — two
engines agreeing on `atomic_sounds` produce identical results (latent and
components included) for the same prompt, and neither call changes any
engine field. -/
theorem C7_deterministic_stateless (e1 e2 : Engine ℚ) (prompt : String)
    (h : e1.atomic_sounds = e2.atomic_sounds) :
    (e1.generate prompt).1 = (e2.generate prompt).1 ∧
    (e1.generate prompt).2 = e1 ∧ (e2.generate prompt).2 = e2 := by
  refine ⟨?_, rfl, rfl⟩
  show generate_scene_from_text e1.atomic_sounds prompt =
    generate_scene_from_text e2.atomic_sounds prompt
  rw [h]

/-- C7 witness: the determinism theorem applied at two concrete engines
that differ in every field except `atomic_sounds`. -/
theorem C7_witness :
    e1C7.atomic_sounds = e2C7.atomic_sounds ∧
    ((e1C7.generate "quiet ocean").1 = (e2C7.generate "quiet ocean").1 ∧
     (e1C7.generate "quiet ocean").2 = e1C7 ∧
     (e2C7.generate "quiet ocean").2 = e2C7) :=
  ⟨rfl, C7_deterministic_stateless e1C7 e2C7 "quiet ocean" rfl⟩

/-- C6: a load/extract error on one file only skips that sample —
processing of remaining files and categories continues.  A category
receives a prototype iff at least one of its samples succeeded, the
prototype is `_average_features` of the successful samples only, and a
failed sample never contributes. -/
theorem C6_error_skips_sample (cats : List (Category ℚ)) (m : List (String × FDict ℚ))
    (htr : train_atomic_sounds cats [] = some m)
    (hnd : (cats.map Category.name).Nodup) (c : Category ℚ) (hc : c ∈ cats) :
    (c.samples.filterMap id = [] → m.lookup c.name = none) ∧
    (c.samples.filterMap id ≠ [] → ∃ p,
      average_features (c.samples.filterMap id) = some p ∧
      m.lookup c.name = some p) := by
  have h := train_lookup_mem cats [] m htr hnd c hc
  exact ⟨fun he => by rw [h.1 he]; rfl, h.2⟩

/-- C6 witness: training the concrete categories stores only `bird`,
averaging its two successful samples and skipping the failed one. -/
theorem C6_witness :
    (train_atomic_sounds catsC6 [] = some [("bird", [("e", FVal.num 2)])] ∧
      (catsC6.map Category.name).Nodup) ∧
    ((Category.mk "broken" ([none, none] : List (Option (FDict ℚ)))).samples.filterMap id = [] →
      ([("bird", [("e", FVal.num (2 : ℚ))])] : List (String × FDict ℚ)).lookup "broken" = none) ∧
    ((Category.mk "bird" [some [("e", FVal.num (1 : ℚ))], none,
        some [("e", FVal.num 3)]]).samples.filterMap id ≠ [] → ∃ p,
      average_features ((Category.mk "bird" [some [("e", FVal.num (1 : ℚ))], none,
        some [("e", FVal.num 3)]]).samples.filterMap id) = some p ∧
      ([("bird", [("e", FVal.num (2 : ℚ))])] : List (String × FDict ℚ)).lookup "bird" = some p) := by
  have havg : average_features [[("e", FVal.num (1 : ℚ))], [("e", FVal.num 3)]] =
      some [("e", FVal.num 2)] := by
    rw [average_features_of_ne_nil _ (by simp)]
    have hku : keysUnion [[("e", FVal.num (1 : ℚ))], [("e", FVal.num 3)]] = ["e"] := by
      norm_num [keysUnion, addAll, insSet]
    rw [hku, avgEntries_cons_some "e" [] _ (FVal.num 1) [FVal.num 3]
      (by simp [collectAt, List.filterMap_cons, List.lookup])]
    rw [show avgEntries ([] : List String)
      [[("e", FVal.num (1 : ℚ))], [("e", FVal.num 3)]] = some [] from by rw [avgEntries]]
    norm_num [avgVal, toNums, listMean]
  have htr : train_atomic_sounds catsC6 [] = some [("bird", [("e", FVal.num 2)])] := by
    norm_num [catsC6, train_atomic_sounds, dinsert, List.lookup, List.filterMap, havg]
  have hnd : (catsC6.map Category.name).Nodup := by
    simp [catsC6]
  have h1 := C6_error_skips_sample catsC6 _ htr hnd ⟨"broken", [none, none]⟩
    (by simp [catsC6])
  have h2 := C6_error_skips_sample catsC6 _ htr hnd
    ⟨"bird", [some [("e", FVal.num 1)], none, some [("e", FVal.num 3)]]⟩
    (by simp [catsC6])
  exact ⟨⟨htr, hnd⟩, h1.1, h2.2⟩

/-- C10: blending is an identity on a single sound: `_blend_sounds` on a
one-element name list with default weights returns the stored prototype
unchanged (scalars, arrays and nested dictionaries included), and
`_average_features` on a one-element list returns its input unchanged. -/
theorem C10_singleton_identity (atomic : List (String × FDict ℚ)) (name : String)
    (proto f : FDict ℚ) (hlk : atomic.lookup name = some proto)
    (hwf : FDict.wfB proto = true) (h2 : FDict.depth2B proto = true)
    (hf : FDict.wfB f = true) :
    blend_sounds atomic [name] none = some proto ∧
    average_features [f] = some f :=
  ⟨blend_sounds_singleton atomic name proto hlk hwf h2,
   average_features_singleton f hf⟩

/-- C10 witness: the singleton identity at a concrete learned sound and a
concrete dictionary. -/
theorem C10_witness :
    ([("rain", protoC10)].lookup "rain" = some protoC10 ∧
      FDict.wfB protoC10 = true ∧ FDict.depth2B protoC10 = true ∧
      FDict.wfB fC10 = true) ∧
    (blend_sounds [("rain", protoC10)] ["rain"] none = some protoC10 ∧
      average_features [fC10] = some fC10) := by
  have hlk : ([("rain", protoC10)] : List (String × FDict ℚ)).lookup "rain" =
      some protoC10 := by
    simp [List.lookup]
  have hwf : FDict.wfB protoC10 = true := by
    simp [protoC10, FDict.wfB, FVal.wfB, FVal.wfList, nodupKeysB]
  have h2 : FDict.depth2B protoC10 = true := by
    simp [protoC10, FDict.depth2B, FVal.depth2B]
  have hf : FDict.wfB fC10 = true := by
    simp [fC10, FDict.wfB, FVal.wfB, FVal.wfList, nodupKeysB]
  exact ⟨⟨hlk, hwf, h2, hf⟩,
    C10_singleton_identity [("rain", protoC10)] "rain" protoC10 fC10 hlk hwf h2 hf⟩

/-- C9: `generate_scene_from_text` returns `None` exactly when no prompt
word matches a learned sound (directly via the semantic map restricted to
`atomic_sounds`, or via substring fallback); any returned scene is the
`Scene` record (exactly the fields `latent`, `components`, `prompt`) with
non-empty `components`, every component a learned sound, the original
prompt, and `atomic_sounds` is never modified. -/
theorem C9_generate_none_iff (atomic : List (String × FDict ℚ)) (prompt : String) :
    (generate_scene_from_text atomic prompt = some none ↔
      ¬ ∃ s, ∃ w ∈ wordsOf prompt,
        ((s ∈ (semantic_map.lookup w).getD [] ∧ (atomic.lookup s).isSome) ∨
         (w.toList <:+: s.toList ∧ s ∈ atomic.map Prod.fst))) ∧
    (∀ e : Engine ℚ, (e.generate prompt).2 = e) ∧
    (∀ sc, generate_scene_from_text atomic prompt = some (some sc) →
      sc.components ≠ [] ∧ (∀ c ∈ sc.components, (atomic.lookup c).isSome) ∧
      sc.prompt = prompt ∧ sc.components = matched_sounds atomic prompt) := by
  refine ⟨?_, fun e => rfl, ?_⟩
  · unfold generate_scene_from_text
    by_cases hms : (matched_sounds atomic prompt).isEmpty
    · rw [if_pos hms]
      refine ⟨fun _ => ?_, fun _ => rfl⟩
      rintro ⟨s, hs⟩
      have : s ∈ matched_sounds atomic prompt := (mem_matched_sounds atomic prompt s).2 hs
      rw [List.isEmpty_iff.1 hms] at this
      exact List.not_mem_nil s this
    · rw [if_neg hms]
      constructor
      · intro h
        cases hb : blend_sounds atomic (matched_sounds atomic prompt) none with
        | none => rw [hb] at h; cases h
        | some l => rw [hb] at h; cases h
      · intro hno
        exfalso
        have hne : matched_sounds atomic prompt ≠ [] := by
          intro he
          rw [he] at hms
          simp at hms
        obtain ⟨s, hs⟩ := List.exists_mem_of_ne_nil _ hne
        exact hno ⟨s, (mem_matched_sounds atomic prompt s).1 hs⟩
  · intro sc hsc
    unfold generate_scene_from_text at hsc
    by_cases hms : (matched_sounds atomic prompt).isEmpty
    · rw [if_pos hms] at hsc
      cases hsc
    · rw [if_neg hms] at hsc
      rw [Option.map_eq_some'] at hsc
      obtain ⟨l, hl, hs⟩ := hsc
      cases hs
      refine ⟨?_, ?_, rfl, rfl⟩
      · show matched_sounds atomic prompt ≠ []
        intro he
        rw [he] at hms
        simp at hms
      · intro c hcm
        exact matched_sounds_subset_atomic atomic prompt c hcm

/-- C9 witness: the prompt `"bird"` matches the learned `bird_chirp`
(semantic map and substring), and the generated scene carries that
component, the prompt and the blended latent. -/
theorem C9_witness :
    generate_scene_from_text [("bird_chirp", [("energy_level", FVal.num (2 : ℚ))])]
      "bird" = some (some (Scene.mk [("energy_level", FVal.num 2)] ["bird_chirp"] "bird")) ∧
    (["bird_chirp"] : List String) ≠ [] ∧
    (∀ c ∈ (["bird_chirp"] : List String),
      (([("bird_chirp", [("energy_level", FVal.num (2 : ℚ))])]
        : List (String × FDict ℚ)).lookup c).isSome) ∧
    ("bird" : String) = "bird" := by
  have hms : matched_sounds [("bird_chirp", [("energy_level", FVal.num (2 : ℚ))])]
      "bird" = ["bird_chirp"] := rfl
  have hbl : blend_sounds [("bird_chirp", [("energy_level", FVal.num (2 : ℚ))])]
      ["bird_chirp"] none = some [("energy_level", FVal.num 2)] := by
    norm_num [blend_sounds, resolveWeights, lookupAll, List.lookup, blendEntries,
      keysUnion, addAll, insSet, presentPairs, blendVal, toNums, wavgNum,
      List.filterMap_cons, Option.map_some']
  have hgen : generate_scene_from_text
      [("bird_chirp", [("energy_level", FVal.num (2 : ℚ))])] "bird" =
      some (some (Scene.mk [("energy_level", FVal.num 2)] ["bird_chirp"] "bird")) := by
    unfold generate_scene_from_text
    rw [hms]
    simp [hbl]
  have h := C9_generate_none_iff
    [("bird_chirp", [("energy_level", FVal.num (2 : ℚ))])] "bird"
  have h3 := h.2.2 (Scene.mk [("energy_level", FVal.num 2)] ["bird_chirp"] "bird") hgen
  exact ⟨hgen, h3.1, h3.2.1, h3.2.2.1 ▸ rfl⟩

/-- C4 counterexample: with weights `[1, 2, 3]`, the code blends the
`"x"` values `[0, 1]` of the last two sub-dictionaries with the FIRST two
weights `[1, 2]` (`weights[:len(values)]`), giving `2/3`, while the
claim's average with those sub-dictionaries' own weights `[2, 3]` is
`3/5`. -/
theorem C4_counterexample :
    ¬ ((blend_dict_values dictsC4 [1, 2, 3]).bind (fun g => g.lookup "x") =
      (claimedDictBlendAt dictsC4 [1, 2, 3] "x").map FVal.num) := by
  have hxy : (("x" : String) == "y") = false := by decide
  have hyx : (("y" : String) == "x") = false := by decide
  have hexy : ¬("x" : String) = "y" := by decide
  have heyx : ¬("y" : String) = "x" := by decide
  have hcode : (blend_dict_values dictsC4 [1, 2, 3]).bind (fun g => g.lookup "x") =
      some (FVal.num (2 / 3)) := by
    norm_num [dictsC4, blend_dict_values, blendDictEntries, keysUnion, addAll, insSet,
      collectAt, List.filterMap_cons, List.lookup, toNums, wavgNum, List.take,
      blendDictVal, hxy, hyx, hexy, heyx]
  have hspec : claimedDictBlendAt dictsC4 [1, 2, 3] "x" = some (3 / 5) := by
    norm_num [dictsC4, claimedDictBlendAt, List.filterMap_cons, List.lookup,
      hxy, hyx, hexy, heyx]
    exact fun h => absurd h (List.cons_ne_nil _ _)
  intro h
  rw [hcode, hspec, Option.map_some'] at h
  simp only [Option.some.injEq, FVal.num.injEq] at h
  norm_num at h

/-- C4 (amended): each nested value in the blend is the weighted average
of the values of the sub-dictionaries containing the key, weighted with
the first `len(values)` entries of the passed weight list
(`weights[:len(values)]`, renormalised by `np.average`) — which are the
weights of those same sub-dictionaries only when the containing
sub-dictionaries form a prefix or the weights are uniform. -/
theorem C4_amended_truncated_weights (dicts : List (FDict ℚ)) (weights : List ℚ)
    (g : FDict ℚ) (h : blend_dict_values dicts weights = some g) (k : String)
    (qs : List ℚ) (hc : toNums (collectAt k dicts) = some qs) (hq : qs ≠ [])
    (hlen : qs.length ≤ weights.length)
    (hsum : (weights.take qs.length).sum ≠ 0) :
    g.lookup k = some (FVal.num
      ((List.zipWith (fun w v => w * v) (weights.take qs.length) qs).sum /
        (weights.take qs.length).sum)) := by
  rw [blend_dict_values_lookup dicts weights g h k]
  have hmap := toNums_eq_map _ qs hc
  cases qs with
  | nil => exact absurd rfl hq
  | cons q0 qs' =>
    rw [hmap]
    rw [show (q0 :: qs').map FVal.num = FVal.num q0 :: qs'.map FVal.num from rfl]
    simp only [blendDictVal]
    rw [show FVal.num q0 :: qs'.map FVal.num = (q0 :: qs').map FVal.num from rfl,
      toNums_of_map, Option.some_bind]
    have hlength : ((q0 :: qs').map FVal.num).length = (q0 :: qs').length :=
      List.length_map _ _
    rw [hlength]
    unfold wavgNum
    rw [if_pos ⟨by rw [List.length_take]; exact Nat.min_eq_left hlen, hsum⟩]
    rfl

/-- C4 witness: the amended prefix-weight average at the concrete
counterexample input. -/
theorem C4_witness :
    (blend_dict_values dictsC4 [1, 2, 3] = some [("y", FVal.num 5), ("x", FVal.num (2 / 3))] ∧
      toNums (collectAt "x" dictsC4) = some [0, 1] ∧
      ([(0 : ℚ), 1] : List ℚ) ≠ [] ∧
      ([(0 : ℚ), 1] : List ℚ).length ≤ ([1, 2, 3] : List ℚ).length ∧
      (([1, 2, 3] : List ℚ).take ([(0 : ℚ), 1] : List ℚ).length).sum ≠ 0) ∧
    ([("y", FVal.num (5 : ℚ)), ("x", FVal.num (2 / 3))] : FDict ℚ).lookup "x" =
      some (FVal.num
        ((List.zipWith (fun w v => w * v)
          (([1, 2, 3] : List ℚ).take ([(0 : ℚ), 1] : List ℚ).length) [0, 1]).sum /
          (([1, 2, 3] : List ℚ).take ([(0 : ℚ), 1] : List ℚ).length).sum)) := by
  have hxy : (("x" : String) == "y") = false := by decide
  have hyx : (("y" : String) == "x") = false := by decide
  have hexy : ¬("x" : String) = "y" := by decide
  have heyx : ¬("y" : String) = "x" := by decide
  have hbl : blend_dict_values dictsC4 [1, 2, 3] =
      some [("y", FVal.num 5), ("x", FVal.num (2 / 3))] := by
    norm_num [dictsC4, blend_dict_values, blendDictEntries, keysUnion, addAll, insSet,
      collectAt, List.filterMap_cons, List.lookup, toNums, wavgNum, List.take,
      blendDictVal, hxy, hyx, hexy, heyx]
  have hc : toNums (collectAt "x" dictsC4) = some [0, 1] := by
    simp [dictsC4, collectAt, List.filterMap_cons, List.lookup, toNums, hxy, hyx]
  have hlen : ([(0 : ℚ), 1] : List ℚ).length ≤ ([1, 2, 3] : List ℚ).length := by
    norm_num
  have hsum : (([1, 2, 3] : List ℚ).take ([(0 : ℚ), 1] : List ℚ).length).sum ≠ 0 := by
    norm_num [List.take]
  exact ⟨⟨hbl, hc, List.cons_ne_nil _ _, hlen, hsum⟩,
    C4_amended_truncated_weights dictsC4 [1, 2, 3] _ hbl "x" [0, 1] hc
      (List.cons_ne_nil _ _) hlen hsum⟩

/-! ### Branch evaluation of the per-key averaging and blending -/
lemma avgVal_nums {α : Type} [Field α] (qs : List α) (hq : qs ≠ []) :
    avgVal (qs.map FVal.num) = some (FVal.num (qs.sum / (qs.length : α))) := by
  cases qs with
  | nil => exact absurd rfl hq
  | cons q0 qs' =>
    rw [show (q0 :: qs').map FVal.num = FVal.num q0 :: qs'.map FVal.num from rfl]
    simp only [avgVal]
    rw [show FVal.num q0 :: qs'.map FVal.num = (q0 :: qs').map FVal.num from rfl,
      toNums_of_map, Option.map_some']
    rfl

lemma avgVal_arrs {α : Type} [Field α] (as : List (List α)) (ha : as ≠ [])
    (hs : sameLen as = true) :
    avgVal (as.map FVal.arr) = some (FVal.arr ((List.range (as.headD []).length).map
      (fun i => (as.map (fun a => a.getD i 0)).sum / (as.length : α)))) := by
  cases as with
  | nil => exact absurd rfl ha
  | cons a0 as' =>
    rw [show (a0 :: as').map FVal.arr = FVal.arr a0 :: as'.map FVal.arr from rfl]
    simp only [avgVal]
    rw [show FVal.arr a0 :: as'.map FVal.arr = (a0 :: as').map FVal.arr from rfl,
      toArrs_of_map, Option.some_bind, if_pos hs, arrMean_formula (a0 :: as') ha]

lemma avgVal_dicts {α : Type} [Field α] (ds : List (FDict α)) (hd : ds ≠ []) :
    avgVal (ds.map FVal.dict) = (avgEntries (keysUnion ds) ds).map FVal.dict := by
  cases ds with
  | nil => exact absurd rfl hd
  | cons d0 ds' =>
    rw [show (d0 :: ds').map FVal.dict = FVal.dict d0 :: ds'.map FVal.dict from rfl]
    simp only [avgVal]
    rw [show FVal.dict d0 :: ds'.map FVal.dict = (d0 :: ds').map FVal.dict from rfl,
      toDicts_of_map, Option.some_bind]

lemma blendVal_nums {α : Type} [Field α] [DecidableEq α] (pairs : List (FVal α × α))
    (qs : List α) (hfst : pairs.map Prod.fst = qs.map FVal.num) (hq : qs ≠ []) :
    blendVal pairs = (wavgNum qs (pairs.map Prod.snd)).map FVal.num := by
  cases pairs with
  | nil =>
    cases qs with
    | nil => exact absurd rfl hq
    | cons q0 qs' => cases hfst
  | cons p ps =>
    cases qs with
    | nil => cases hfst
    | cons q0 qs' =>
      obtain ⟨v, w⟩ := p
      rw [List.map_cons, List.map_cons, List.cons.injEq] at hfst
      obtain ⟨hv, hrest⟩ := hfst
      simp only at hv
      subst hv
      simp only [blendVal, List.map_cons]
      rw [show FVal.num q0 :: ps.map Prod.fst = FVal.num q0 :: qs'.map FVal.num by
        rw [hrest], show FVal.num q0 :: qs'.map FVal.num = (q0 :: qs').map FVal.num
        from rfl, toNums_of_map, Option.some_bind]

lemma blendVal_arrs {α : Type} [Field α] [DecidableEq α] (pairs : List (FVal α × α))
    (as : List (List α)) (hfst : pairs.map Prod.fst = as.map FVal.arr) (ha : as ≠ []) :
    blendVal pairs = (wavgArr as (pairs.map Prod.snd)).map FVal.arr := by
  cases pairs with
  | nil =>
    cases as with
    | nil => exact absurd rfl ha
    | cons a0 as' => cases hfst
  | cons p ps =>
    cases as with
    | nil => cases hfst
    | cons a0 as' =>
      obtain ⟨v, w⟩ := p
      rw [List.map_cons, List.map_cons, List.cons.injEq] at hfst
      obtain ⟨hv, hrest⟩ := hfst
      simp only at hv
      subst hv
      simp only [blendVal, List.map_cons]
      rw [show FVal.arr a0 :: ps.map Prod.fst = FVal.arr a0 :: as'.map FVal.arr by
        rw [hrest], show FVal.arr a0 :: as'.map FVal.arr = (a0 :: as').map FVal.arr
        from rfl, toArrs_of_map, Option.some_bind]

lemma blendVal_dicts {α : Type} [Field α] [DecidableEq α] (pairs : List (FVal α × α))
    (ds : List (FDict α)) (hfst : pairs.map Prod.fst = ds.map FVal.dict) (hd : ds ≠ []) :
    blendVal pairs = (blend_dict_values ds (pairs.map Prod.snd)).map FVal.dict := by
  cases pairs with
  | nil =>
    cases ds with
    | nil => exact absurd rfl hd
    | cons d0 ds' => cases hfst
  | cons p ps =>
    cases ds with
    | nil => cases hfst
    | cons d0 ds' =>
      obtain ⟨v, w⟩ := p
      rw [List.map_cons, List.map_cons, List.cons.injEq] at hfst
      obtain ⟨hv, hrest⟩ := hfst
      simp only at hv
      subst hv
      simp only [blendVal, List.map_cons]
      rw [show FVal.dict d0 :: ps.map Prod.fst = FVal.dict d0 :: ds'.map FVal.dict by
        rw [hrest], show FVal.dict d0 :: ds'.map FVal.dict = (d0 :: ds').map FVal.dict
        from rfl, toDicts_of_map, Option.some_bind]

/-- The scalar branch of `_blend_dict_values` with the source's prefix
weights `weights[:len(values)]`. -/
lemma blendDictVal_nums {α : Type} [Field α] [DecidableEq α] (vs : List (FVal α))
    (weights : List α) (qs : List α) (hmap : vs = qs.map FVal.num) (hq : qs ≠ []) :
    blendDictVal vs weights = (wavgNum qs (weights.take qs.length)).map FVal.num := by
  subst hmap
  cases qs with
  | nil => exact absurd rfl hq
  | cons q0 qs' =>
    rw [show (q0 :: qs').map FVal.num = FVal.num q0 :: qs'.map FVal.num from rfl]
    simp only [blendDictVal]
    rw [show FVal.num q0 :: qs'.map FVal.num = (q0 :: qs').map FVal.num from rfl,
      toNums_of_map, Option.some_bind]
    rw [show ((q0 :: qs').map FVal.num).length = (q0 :: qs').length from
      List.length_map _ _]

/-- Success extraction for the blending loop. -/
lemma blendEntries_success {α : Type} [Field α] [DecidableEq α] (ks : List String)
    (latents : List (FDict α)) (ws : List α) (g : FDict α)
    (h : blendEntries ks latents ws = some g) (k : String) (hk : k ∈ ks)
    (p : FVal α × α) (ps : List (FVal α × α))
    (hc : presentPairs k latents ws = p :: ps) : ∃ r, blendVal (p :: ps) = some r := by
  induction ks generalizing g with
  | nil => exact absurd hk (List.not_mem_nil k)
  | cons k' ks ih =>
    by_cases hkk : k = k'
    · subst hkk
      rw [blendEntries_cons_some k ks latents ws p ps hc] at h
      simp only [Option.bind_eq_some] at h
      obtain ⟨r, hr, _⟩ := h
      exact ⟨r, hr⟩
    · cases hc' : presentPairs k' latents ws with
      | nil =>
        rw [blendEntries_cons_nil k' ks latents ws hc'] at h
        exact ih g h (List.mem_of_ne_of_mem hkk hk)
      | cons p' ps' =>
        rw [blendEntries_cons_some k' ks latents ws p' ps' hc'] at h
        simp only [Option.bind_eq_some, Option.map_eq_some'] at h
        obtain ⟨r, _, rest, hrest, _⟩ := h
        exact ih rest hrest (List.mem_of_ne_of_mem hkk hk)

/-- A successful `_blend_sounds` call, split into its three stages. -/
lemma blend_sounds_parts {α : Type} [Field α] [DecidableEq α]
    (atomic : List (String × FDict α)) (names : List String)
    (wOpt : Option (List α)) (g : FDict α)
    (h : blend_sounds atomic names wOpt = some g) :
    ∃ ws latents, resolveWeights wOpt names = some ws ∧
      lookupAll atomic names = some latents ∧
      blendEntries (keysUnion latents) latents ws = some g := by
  unfold blend_sounds at h
  simp only [Option.bind_eq_bind, Option.bind_eq_some] at h
  obtain ⟨ws, hws, latents, hlat, hbl⟩ := h
  exact ⟨ws, latents, hws, hlat, hbl⟩

/-- C1: for a category trained with at least one successfully extracted
sample, the stored atomic-sound prototype is the element-wise mean of the
successful samples' feature dictionaries: scalar descriptors are averaged
as numbers, array descriptors component-wise, nested dictionaries
recursively key by key, and each key is averaged over exactly the samples
that contain it. -/
theorem C1_prototype_is_mean (c : Category ℚ) (m : List (String × FDict ℚ))
    (htr : train_atomic_sounds [c] [] = some m)
    (hne : c.samples.filterMap id ≠ []) :
    ∃ p, m.lookup c.name = some p ∧
      ∀ k,
        (collectAt k (c.samples.filterMap id) = [] → p.lookup k = none) ∧
        (∀ qs, toNums (collectAt k (c.samples.filterMap id)) = some qs → qs ≠ [] →
          p.lookup k = some (FVal.num (qs.sum / (qs.length : ℚ)))) ∧
        (∀ as, toArrs (collectAt k (c.samples.filterMap id)) = some as → as ≠ [] →
          sameLen as = true →
          p.lookup k = some (FVal.arr ((List.range (as.headD []).length).map
            (fun i => (as.map (fun a => a.getD i 0)).sum / (as.length : ℚ))))) ∧
        (∀ ds, toDicts (collectAt k (c.samples.filterMap id)) = some ds → ds ≠ [] →
          ∃ e, p.lookup k = some (FVal.dict e) ∧
            ∀ k2,
              (collectAt k2 ds = [] → e.lookup k2 = none) ∧
              (∀ qs, toNums (collectAt k2 ds) = some qs → qs ≠ [] →
                e.lookup k2 = some (FVal.num (qs.sum / (qs.length : ℚ))))) := by
  have hmem := train_lookup_mem [c] [] m htr (by simp) c (List.mem_cons_self c [])
  obtain ⟨p, hp, hlk⟩ := hmem.2 hne
  refine ⟨p, hlk, fun k => ⟨?_, ?_, ?_, ?_⟩⟩
  · intro hc
    rw [average_features_lookup _ p hp k, hc]
    rfl
  · intro qs hq hqne
    rw [average_features_lookup _ p hp k, toNums_eq_map _ qs hq, avgVal_nums qs hqne]
  · intro as ha hane hs
    rw [average_features_lookup _ p hp k, toArrs_eq_map _ as ha, avgVal_arrs as hane hs]
  · intro ds hds hdne
    have hmapc := toDicts_eq_map _ ds hds
    cases ds with
    | nil => exact absurd rfl hdne
    | cons d0 ds' =>
      have hcc : collectAt k (c.samples.filterMap id) =
          FVal.dict d0 :: ds'.map FVal.dict := by
        rw [hmapc]
        rfl
      obtain ⟨r, hr, hlkr⟩ := average_features_success _ p hp k _ _ hcc
      rw [show FVal.dict d0 :: ds'.map FVal.dict = (d0 :: ds').map FVal.dict from rfl,
        avgVal_dicts (d0 :: ds') hdne, Option.map_eq_some'] at hr
      obtain ⟨e, he, rfl⟩ := hr
      have haf : average_features (d0 :: ds') = some e := by
        rw [average_features_of_ne_nil _ hdne]
        exact he
      refine ⟨e, hlkr, fun k2 => ⟨?_, ?_⟩⟩
      · intro hc2
        rw [average_features_lookup _ e haf k2, hc2]
        rfl
      · intro qs hq hqne
        rw [average_features_lookup _ e haf k2, toNums_eq_map _ qs hq, avgVal_nums qs hqne]

/-- C1 witness: the prototype theorem applied to the concrete category;
the stored prototype holds the mean `3/2` of the two successful samples'
`energy` values. -/
theorem C1_witness :
    (train_atomic_sounds [catC1] [] = some [("cafe", [("energy", FVal.num (3 / 2))])] ∧
      catC1.samples.filterMap id ≠ []) ∧
    (∃ p, ([("cafe", [("energy", FVal.num ((3 : ℚ) / 2))])]
        : List (String × FDict ℚ)).lookup "cafe" = some p ∧
      ∀ k,
        (collectAt k (catC1.samples.filterMap id) = [] → p.lookup k = none) ∧
        (∀ qs, toNums (collectAt k (catC1.samples.filterMap id)) = some qs → qs ≠ [] →
          p.lookup k = some (FVal.num (qs.sum / (qs.length : ℚ)))) ∧
        (∀ as, toArrs (collectAt k (catC1.samples.filterMap id)) = some as → as ≠ [] →
          sameLen as = true →
          p.lookup k = some (FVal.arr ((List.range (as.headD []).length).map
            (fun i => (as.map (fun a => a.getD i 0)).sum / (as.length : ℚ))))) ∧
        (∀ ds, toDicts (collectAt k (catC1.samples.filterMap id)) = some ds → ds ≠ [] →
          ∃ e, p.lookup k = some (FVal.dict e) ∧
            ∀ k2,
              (collectAt k2 ds = [] → e.lookup k2 = none) ∧
              (∀ qs, toNums (collectAt k2 ds) = some qs → qs ≠ [] →
                e.lookup k2 = some (FVal.num (qs.sum / (qs.length : ℚ)))))) := by
  have havg : average_features [[("energy", FVal.num (1 : ℚ))],
      [("energy", FVal.num 2)]] = some [("energy", FVal.num (3 / 2))] := by
    rw [average_features_of_ne_nil _ (by simp)]
    have hku : keysUnion [[("energy", FVal.num (1 : ℚ))], [("energy", FVal.num 2)]] =
        ["energy"] := rfl
    rw [hku, avgEntries_cons_some "energy" [] _ (FVal.num 1) [FVal.num 2]
      (by simp [collectAt, List.filterMap_cons, List.lookup])]
    rw [show avgEntries ([] : List String)
      [[("energy", FVal.num (1 : ℚ))], [("energy", FVal.num 2)]] = some [] from by
        rw [avgEntries]]
    rw [show [FVal.num (1 : ℚ), FVal.num 2] = ([1, 2] : List ℚ).map FVal.num from rfl,
      avgVal_nums [1, 2] (List.cons_ne_nil _ _)]
    norm_num
  have htr : train_atomic_sounds [catC1] [] =
      some [("cafe", [("energy", FVal.num (3 / 2))])] := by
    norm_num [catC1, train_atomic_sounds, List.filterMap, dinsert, List.lookup, havg]
  have hne : catC1.samples.filterMap id ≠ [] := by simp [catC1]
  exact ⟨⟨htr, hne⟩, C1_prototype_is_mean catC1 _ htr hne⟩

/-- A key with present pairs lies in the key union of the latents. -/
lemma presentPairs_mem_keysUnion {α : Type} (k : String) (latents : List (FDict α))
    (ws : List α) (p : FVal α × α) (ps : List (FVal α × α))
    (h : presentPairs k latents ws = p :: ps) : k ∈ keysUnion latents := by
  have hp : p ∈ presentPairs k latents ws := by
    rw [h]
    exact List.mem_cons_self p ps
  unfold presentPairs at hp
  rw [List.mem_filterMap] at hp
  obtain ⟨⟨f, w⟩, hmem, hmap⟩ := hp
  have hf : f ∈ latents := (List.of_mem_zip hmem).1
  cases hl : f.lookup k with
  | none =>
    rw [hl] at hmap
    cases hmap
  | some v =>
    exact (mem_keysUnion latents k).2
      ⟨f, hf, (lookup_isSome_iff f k).1 (by rw [hl]; rfl)⟩

/-- C2: `generate_scene_from_text` lowercases and whitespace-splits the
prompt; the matched components are exactly the union over prompt words of
the semantic-map entries restricted to learned sounds together with the
substring fallback over learned sound names; and the returned latent is
the equal-weight (`1/n`) blend of the matched prototypes: per key, the
weights of the prototypes containing the key are renormalised, which for
equal weights is their plain mean — recursively into arrays and nested
dictionaries. -/
theorem C2_match_and_equal_weight_blend (atomic : List (String × FDict ℚ))
    (prompt : String) :
    (∀ s, s ∈ matched_sounds atomic prompt ↔
      ∃ w ∈ wordsOf prompt,
        ((s ∈ (semantic_map.lookup w).getD [] ∧ (atomic.lookup s).isSome) ∨
         (w.toList <:+: s.toList ∧ s ∈ atomic.map Prod.fst))) ∧
    (∀ sc, generate_scene_from_text atomic prompt = some (some sc) →
      sc.components = matched_sounds atomic prompt ∧
      ∃ latents, lookupAll atomic sc.components = some latents ∧
        (∀ k qs, toNums (collectAt k latents) = some qs → qs ≠ [] →
          sc.latent.lookup k = some (FVal.num (qs.sum / (qs.length : ℚ)))) ∧
        (∀ k as, toArrs (collectAt k latents) = some as → as ≠ [] →
          sameLen as = true →
          sc.latent.lookup k = some (FVal.arr ((List.range (as.headD []).length).map
            (fun i => (as.map (fun a => a.getD i 0)).sum / (as.length : ℚ))))) ∧
        (∀ k ds, toDicts (collectAt k latents) = some ds → ds ≠ [] →
          ∃ e, sc.latent.lookup k = some (FVal.dict e) ∧
            ∀ k2 qs, toNums (collectAt k2 ds) = some qs → qs ≠ [] →
              e.lookup k2 = some (FVal.num (qs.sum / (qs.length : ℚ))))) := by
  refine ⟨mem_matched_sounds atomic prompt, ?_⟩
  intro sc hsc
  unfold generate_scene_from_text at hsc
  by_cases hms : (matched_sounds atomic prompt).isEmpty
  · rw [if_pos hms] at hsc
    cases hsc
  · rw [if_neg hms] at hsc
    rw [Option.map_eq_some'] at hsc
    obtain ⟨l, hbl, hsceq⟩ := hsc
    cases hsceq
    obtain ⟨ws, latents, hws, hlat, hent⟩ :=
      blend_sounds_parts atomic (matched_sounds atomic prompt) none l hbl
    obtain ⟨ws', latents', hws', hlat', hlook⟩ :=
      blend_sounds_lookup atomic (matched_sounds atomic prompt) none l hbl
    rw [hws'] at hws
    rw [hlat'] at hlat
    cases hws
    cases hlat
    have hmsne : matched_sounds atomic prompt ≠ [] := by
      intro he
      rw [he] at hms
      simp at hms
    have hn0 : (matched_sounds atomic prompt).length ≠ 0 := by
      simpa using hmsne
    -- the default weights
    have hwseq : ws = List.replicate (matched_sounds atomic prompt).length
        (1 / ((matched_sounds atomic prompt).length : ℚ)) := by
      unfold resolveWeights at hws'
      rw [if_neg hn0] at hws'
      cases hws'
      rfl
    have hlatlen : (matched_sounds atomic prompt).length = latents.length :=
      ((lookupAll_forall2 atomic _ latents).1 hlat').length_eq
    have hwslen : ws.length = latents.length := by
      rw [hwseq, List.length_replicate, hlatlen]
    have hw0 : (1 : ℚ) / ((matched_sounds atomic prompt).length : ℚ) ≠ 0 :=
      one_div_ne_zero (Nat.cast_ne_zero.2 hn0)
    have hsnd : ∀ k, (presentPairs k latents ws).map Prod.snd =
        List.replicate (presentPairs k latents ws).length
          (1 / ((matched_sounds atomic prompt).length : ℚ)) := by
      intro k
      rw [hwseq]
      exact presentPairs_snd_replicate k latents _ _ hlatlen
    refine ⟨rfl, latents, hlat', ?_, ?_, ?_⟩
    · intro k qs hq hqne
      have hfst : (presentPairs k latents ws).map Prod.fst = qs.map FVal.num := by
        rw [presentPairs_fst k latents ws hwslen]
        exact toNums_eq_map _ qs hq
      have hplen : (presentPairs k latents ws).length = qs.length := by
        have := congrArg List.length hfst
        simpa using this
      show l.lookup k = _
      rw [hlook k, blendVal_nums _ qs hfst hqne, hsnd k, hplen,
        wavgNum_replicate qs _ hw0 hqne, Option.map_some']
      rfl
    · intro k as ha hane hs
      have hfst : (presentPairs k latents ws).map Prod.fst = as.map FVal.arr := by
        rw [presentPairs_fst k latents ws hwslen]
        exact toArrs_eq_map _ as ha
      have hplen : (presentPairs k latents ws).length = as.length := by
        have := congrArg List.length hfst
        simpa using this
      show l.lookup k = _
      rw [hlook k, blendVal_arrs _ as hfst hane, hsnd k, hplen,
        wavgArr_replicate as _ hw0 hane hs, Option.map_some']
    · intro k ds hds hdne
      have hfst : (presentPairs k latents ws).map Prod.fst = ds.map FVal.dict := by
        rw [presentPairs_fst k latents ws hwslen]
        exact toDicts_eq_map _ ds hds
      cases hpp : presentPairs k latents ws with
      | nil =>
        rw [hpp] at hfst
        cases ds with
        | nil => exact absurd rfl hdne
        | cons d0 ds' => cases hfst
      | cons p ps =>
        obtain ⟨r, hr⟩ := blendEntries_success (keysUnion latents) latents ws l hent k
          (presentPairs_mem_keysUnion k latents ws p ps hpp) p ps hpp
        rw [hpp] at hfst
        have hbd := blendVal_dicts (p :: ps) ds hfst hdne
        rw [hbd, Option.map_eq_some'] at hr
        obtain ⟨e, he, rfl⟩ := hr
        refine ⟨e, ?_, ?_⟩
        · show l.lookup k = _
          rw [hlook k, hpp, hbd, he, Option.map_some']
        · intro k2 qs hq2 hqne2
          rw [blend_dict_values_lookup ds _ e he k2,
            blendDictVal_nums _ _ qs (toNums_eq_map _ qs hq2) hqne2]
          have hqlen : qs.length ≤ ((p :: ps).map Prod.snd).length := by
            have h1 : qs.length = (collectAt k2 ds).length := by
              have := congrArg List.length (toNums_eq_map _ qs hq2)
              simpa using this.symm
            have h2 := collectAt_length_le k2 ds
            have h3 : ds.length = (p :: ps).length := by
              have := congrArg List.length hfst
              simpa using this.symm
            rw [List.length_map]
            omega
          have hsnd2 : (p :: ps).map Prod.snd =
              List.replicate ((p :: ps).map Prod.snd).length
                (1 / ((matched_sounds atomic prompt).length : ℚ)) := by
            have := hsnd k
            rw [hpp] at this
            rw [this]
            simp
          rw [hsnd2, List.take_replicate,
            Nat.min_eq_left hqlen, wavgNum_replicate qs _ hw0 hqne2,
            Option.map_some']
          rfl

/-- C2 witness: `"calm"` matches `forest_ambience` through the semantic
map and `"bird"` matches `bird_chirp` (map and substring); the latent is
the equal-weight blend: `e` is the mean of the two prototypes, `t` and
`o` come from the only prototype containing them. -/
theorem C2_witness :
    generate_scene_from_text atomicC2 "calm bird" = some (some scC2) ∧
    (scC2.components = matched_sounds atomicC2 "calm bird" ∧
      ∃ latents, lookupAll atomicC2 scC2.components = some latents ∧
        (∀ k qs, toNums (collectAt k latents) = some qs → qs ≠ [] →
          scC2.latent.lookup k = some (FVal.num (qs.sum / (qs.length : ℚ)))) ∧
        (∀ k as, toArrs (collectAt k latents) = some as → as ≠ [] →
          sameLen as = true →
          scC2.latent.lookup k = some (FVal.arr ((List.range (as.headD []).length).map
            (fun i => (as.map (fun a => a.getD i 0)).sum / (as.length : ℚ))))) ∧
        (∀ k ds, toDicts (collectAt k latents) = some ds → ds ≠ [] →
          ∃ e, scC2.latent.lookup k = some (FVal.dict e) ∧
            ∀ k2 qs, toNums (collectAt k2 ds) = some qs → qs ≠ [] →
              e.lookup k2 = some (FVal.num (qs.sum / (qs.length : ℚ))))) := by
  have hms : matched_sounds atomicC2 "calm bird" = ["forest_ambience", "bird_chirp"] := rfl
  have hte : (("t" : String) == "e") = false := by decide
  have hoe : (("o" : String) == "e") = false := by decide
  have hot : (("o" : String) == "t") = false := by decide
  have hpte : ¬("t" : String) = "e" := by decide
  have hpoe : ¬("o" : String) = "e" := by decide
  have hpot : ¬("o" : String) = "t" := by decide
  have hbf : (("bird_chirp" : String) == "forest_ambience") = false := by decide
  have hbl : blend_sounds atomicC2 ["forest_ambience", "bird_chirp"] none = some latC2 := by
    norm_num [atomicC2, latC2, blend_sounds, resolveWeights, lookupAll, List.lookup,
      blendEntries, keysUnion, addAll, insSet, presentPairs, blendVal, toNums, toArrs,
      toDicts, wavgNum, wavgArr, sameLen, blend_dict_values, blendDictEntries,
      blendDictVal, collectAt, List.filterMap_cons, List.replicate, List.take,
      List.range_succ, List.range_zero, hte, hoe, hot, hpte, hpoe, hpot, hbf]
  have hgen : generate_scene_from_text atomicC2 "calm bird" = some (some scC2) := by
    unfold generate_scene_from_text
    rw [hms]
    simp [hbl, scC2]
  exact ⟨hgen, (C2_match_and_equal_weight_blend atomicC2 "calm bird").2 scC2 hgen⟩

end Equivocal

